import Mathlib

/-
Verification development for `ehr_ml.clmbr.featurizer` (class `CLMBRFeaturizer`).

The file shallowly embeds the orchestration logic of `featurizer.py`:
the training loop `fit`, the loss evaluator `evaluate`, the representation
extractor `featurize_patients` and the loader `from_pretrained`.

External collaborators (the model forward/backward pass, the optimizer update
math, the `DataLoader` batch construction, the filesystem and torch
serialization) are represented by oracles / abstract data, while the control
flow, state updates and event ordering of the orchestration layer are
translated line by line from the source.
-/

/-! ## Basic data -/

abbrev Pid := Nat

abbrev Vec := List ℚ

/-- The hyperparameter configuration dictionary (`config`), restricted to the
keys that `featurizer.py` reads. -/
structure Config where
  size : Nat
  lr : ℚ
  warmup_epochs : ℚ
  epochs_per_cycle : Nat
  batch_size : Nat
  eval_batch_size : Nat
  num_first : Nat
  day_dropout : ℚ
  code_dropout : ℚ
  b1 : ℚ
  b2 : ℚ
  e : ℚ
  l2 : ℚ
deriving DecidableEq

/-- The dataset handle; the featurizer only calls `dataset.num_batches`. -/
structure Dataset where
  numBatches : Nat → Bool → Nat

/-- The model's parameter list as exposed by `named_parameters()`:
a parameter identifier together with its `requires_grad` flag. -/
structure ModelParams where
  namedParameters : List (Nat × Bool)

/-! ## Patient index construction (`featurize_patients`, lines 191-193)

`patient_id_to_info = defaultdict(dict); for i, (pid, index) in
enumerate(zip(patient_ids, day_offsets)): patient_id_to_info[pid][index] = i`.

The dict-of-dicts is embedded as a flat association list keyed by the pair
`(patient_id, day_offset)`; a repeated key updates the stored value in place
(Python dict semantics), so the later query position wins. -/

/-- Python dict assignment `d[p][o] = i` on the flattened dict-of-dicts:
an existing key keeps its position and gets the new value, a new key is
appended at the end. -/
def upsert : List (Pid × Nat × Nat) → Pid → Nat → Nat → List (Pid × Nat × Nat)
  | [], p, o, i => [(p, o, i)]
  | (p', o', r) :: rest, p, o, i =>
      if p' = p ∧ o' = o then (p', o', i) :: rest
      else (p', o', r) :: upsert rest p o i

/-- The loop body of lines 192-193, with `i` the running `enumerate` counter. -/
def buildInfoAux : Nat → List (Pid × Nat) → List (Pid × Nat × Nat) → List (Pid × Nat × Nat)
  | _, [], d => d
  | i, (p, o) :: rest, d => buildInfoAux (i + 1) rest (upsert d p o i)

/-- `patient_id_to_info` built from the query `zip(patient_ids, day_offsets)`. -/
def buildInfo (q : List (Pid × Nat)) : List (Pid × Nat × Nat) :=
  buildInfoAux 0 q []

/-- Dict lookup `patient_id_to_info[p][o]` (`none` when the key is absent). -/
def infoLookup : List (Pid × Nat × Nat) → Pid → Nat → Option Nat
  | [], _, _ => none
  | (p', o', r) :: rest, p, o =>
      if p' = p ∧ o' = o then some r else infoLookup rest p o

/-- `patient_id_to_info[p].items()`: the (offset, output row) pairs stored for
patient `p`, in insertion order. -/
def itemsOf (d : List (Pid × Nat × Nat)) (p : Pid) : List (Nat × Nat) :=
  (d.filter (fun e => decide (e.1 = p))).map (fun e => e.2)

/-- The index of the last occurrence of the pair `(p, o)` in the query list;
reference function used to specify `buildInfo`. -/
def lastIdx : List (Pid × Nat) → Pid → Nat → Option Nat
  | [], _, _ => none
  | (p', o') :: rest, p, o =>
      match lastIdx rest p o with
      | some j => some (j + 1)
      | none => if p' = p ∧ o' = o then some 0 else none

/-! ## The batch stream and the scatter step (`featurize_patients`, lines 195-214)

Modelled from the spec: the `DataLoader` / `PatientTimelineDataset` batch
construction is repository code that is not under `src/`.  Per the spec, a
streamed batch carries a list of contained patient ids and, for each contained
patient, "an embedding per time position present in that patient's windowed
timeline"; a requested offset that is not present in the window is silently
skipped by the scatter step.  `emb i t` is the embedding vector of the batch's
`i`-th patient at timeline position `t`, `none` when `t` is outside that
patient's window in this batch. -/
structure Batch where
  pids : List Pid
  emb : Nat → Nat → Option Vec

/-- The inner scatter loop (line 211-212): for each `(index, target_id)` in
`patient_id_to_info[patient_id].items()`, write `embeddings[i, index, :]` to
output row `target_id`; an offset outside the batch window is skipped
(modelled from the spec, see `Batch`). -/
def scatterPatient (out : List Vec) (entries : List (Nat × Nat))
    (embRow : Nat → Option Vec) : List Vec :=
  entries.foldl
    (fun acc eo =>
      match embRow eo.1 with
      | some v => acc.set eo.2 v
      | none => acc)
    out

/-- The outer scatter loop (line 210): `for i, patient_id in
enumerate(batch["pid"])`, with `i` the running counter. -/
def scatterPids (d : List (Pid × Nat × Nat)) (emb : Nat → Nat → Option Vec) :
    Nat → List Pid → List Vec → List Vec
  | _, [], out => out
  | i, pid :: rest, out =>
      scatterPids d emb (i + 1) rest (scatterPatient out (itemsOf d pid) (emb i))

/-- Scatter one batch into the output matrix. -/
def scatterBatch (d : List (Pid × Nat × Nat)) (b : Batch) (out : List Vec) : List Vec :=
  scatterPids d b.emb 0 b.pids out

/-- A zero row of `np.zeros((len(patient_ids), config["size"]))`. -/
def zeroRow (cfg : Config) : Vec :=
  List.replicate cfg.size 0

/-- `featurize_patients` (lines 172-214): build the patient index from the
query, initialize the output matrix to zeros, stream the batches and scatter
each one into the matrix. -/
def featurize_patients (cfg : Config) (batches : List Batch)
    (patient_ids day_offsets : List Nat) : List Vec :=
  let d := buildInfo (patient_ids.zip day_offsets)
  let init := List.replicate patient_ids.length (zeroRow cfg)
  batches.foldl (fun out b => scatterBatch d b out) init

/-! ### Reference functions describing the writes that reach one output row -/

/-- The vectors written to output row `r` by the inner loop over `entries`,
in write order. -/
def patientWrites (entries : List (Nat × Nat)) (embRow : Nat → Option Vec)
    (r : Nat) : List Vec :=
  entries.filterMap (fun eo => if eo.2 = r then embRow eo.1 else none)

/-- The vectors written to output row `r` while scattering a single batch. -/
def pidsWrites (d : List (Pid × Nat × Nat)) (emb : Nat → Nat → Option Vec) :
    Nat → List Pid → Nat → List Vec
  | _, [], _ => []
  | i, pid :: rest, r =>
      patientWrites (itemsOf d pid) (emb i) r ++ pidsWrites d emb (i + 1) rest r

/-- The vectors written to output row `r` over the whole batch stream. -/
def rowWrites (d : List (Pid × Nat × Nat)) (batches : List Batch) (r : Nat) : List Vec :=
  (batches.map (fun b => pidsWrites d b.emb 0 b.pids r)).flatten

/-! ## Lemmas: the patient index implements last-write-wins lookup -/

theorem infoLookup_upsert (d : List (Pid × Nat × Nat)) (p o i p' o' : Nat) :
    infoLookup (upsert d p o i) p' o' =
      if p' = p ∧ o' = o then some i else infoLookup d p' o' := by
  induction d with
  | nil =>
    by_cases hp : p' = p
    · subst hp
      by_cases ho : o' = o
      · subst ho
        simp [upsert, infoLookup]
      · simp [upsert, infoLookup, ho, Ne.symm ho]
    · simp [upsert, infoLookup, hp, Ne.symm hp]
  | cons hd tl ih =>
    obtain ⟨a, b, r⟩ := hd
    simp only [upsert]
    by_cases hab : a = p ∧ b = o
    · obtain ⟨ha, hb⟩ := hab
      subst ha; subst hb
      simp only [if_pos (show a = a ∧ b = b from ⟨rfl, rfl⟩)]
      by_cases hq : p' = a ∧ o' = b
      · obtain ⟨h1, h2⟩ := hq
        subst h1; subst h2
        simp [infoLookup]
      · have hq' : ¬ (a = p' ∧ b = o') := fun h => hq ⟨h.1.symm, h.2.symm⟩
        simp [infoLookup, hq, hq']
    · simp only [if_neg hab]
      by_cases hh : a = p' ∧ b = o'
      · obtain ⟨h1, h2⟩ := hh
        subst h1; subst h2
        simp [infoLookup, hab]
      · simp [infoLookup, hh, ih]


/-- The key of an index entry. -/
def keyOf (e : Pid × Nat × Nat) : Pid × Nat := (e.1, e.2.1)

/-- Python dict invariant: every key appears at most once. -/
def uniqueKeys (d : List (Pid × Nat × Nat)) : Prop :=
  d.Pairwise (fun e e' => keyOf e ≠ keyOf e')

theorem mem_upsert (d : List (Pid × Nat × Nat)) (p o i : Nat) :
    ∀ e ∈ upsert d p o i, keyOf e = (p, o) ∨ e ∈ d := by
  induction d with
  | nil => simp [upsert, keyOf]
  | cons hd tl ih =>
    obtain ⟨a, b, r⟩ := hd
    intro e he
    simp only [upsert] at he
    by_cases hab : a = p ∧ b = o
    · rw [if_pos hab] at he
      rcases List.mem_cons.mp he with h | h
      · subst h
        exact Or.inl (by simp [keyOf, hab.1, hab.2])
      · exact Or.inr (List.mem_cons_of_mem _ h)
    · rw [if_neg hab] at he
      rcases List.mem_cons.mp he with h | h
      · subst h
        exact Or.inr (List.mem_cons_self _ _)
      · rcases ih e h with h' | h'
        · exact Or.inl h'
        · exact Or.inr (List.mem_cons_of_mem _ h')

theorem uniqueKeys_upsert (d : List (Pid × Nat × Nat)) (p o i : Nat)
    (h : uniqueKeys d) : uniqueKeys (upsert d p o i) := by
  induction d with
  | nil => simp [upsert, uniqueKeys]
  | cons hd tl ih =>
    obtain ⟨a, b, r⟩ := hd
    rw [uniqueKeys, List.pairwise_cons] at h
    obtain ⟨hhead, htl⟩ := h
    simp only [upsert]
    by_cases hab : a = p ∧ b = o
    · rw [if_pos hab]
      rw [uniqueKeys, List.pairwise_cons]
      exact ⟨fun e he => hhead e he, htl⟩
    · rw [if_neg hab]
      rw [uniqueKeys, List.pairwise_cons]
      refine ⟨fun e he => ?_, ih htl⟩
      rcases mem_upsert tl p o i e he with h' | h'
      · rw [h']
        simp only [keyOf, ne_eq, Prod.mk.injEq]
        intro hc
        exact hab ⟨hc.1, hc.2⟩
      · exact hhead e h'

theorem uniqueKeys_buildInfoAux (q : List (Pid × Nat)) :
    ∀ i d, uniqueKeys d → uniqueKeys (buildInfoAux i q d) := by
  induction q with
  | nil => intro i d h; exact h
  | cons hd rest ih =>
    obtain ⟨p, o⟩ := hd
    intro i d h
    exact ih (i + 1) _ (uniqueKeys_upsert d p o i h)

theorem uniqueKeys_buildInfo (q : List (Pid × Nat)) : uniqueKeys (buildInfo q) :=
  uniqueKeys_buildInfoAux q 0 [] (by simp [uniqueKeys])

theorem mem_of_infoLookup (d : List (Pid × Nat × Nat)) (p o r : Nat)
    (h : infoLookup d p o = some r) : (p, o, r) ∈ d := by
  induction d with
  | nil => simp [infoLookup] at h
  | cons hd tl ih =>
    obtain ⟨a, b, r'⟩ := hd
    simp only [infoLookup] at h
    by_cases hab : a = p ∧ b = o
    · rw [if_pos hab] at h
      obtain ⟨ha, hb⟩ := hab
      obtain rfl : r' = r := by injection h
      subst ha; subst hb
      exact List.mem_cons_self _ _
    · rw [if_neg hab] at h
      exact List.mem_cons_of_mem _ (ih h)

theorem infoLookup_of_mem (d : List (Pid × Nat × Nat)) (p o r : Nat)
    (hu : uniqueKeys d) (h : (p, o, r) ∈ d) : infoLookup d p o = some r := by
  induction d with
  | nil => simp at h
  | cons hd tl ih =>
    obtain ⟨a, b, r'⟩ := hd
    rw [uniqueKeys, List.pairwise_cons] at hu
    obtain ⟨hhead, htl⟩ := hu
    rcases List.mem_cons.mp h with h' | h'
    · obtain ⟨ha, hb, hr⟩ : p = a ∧ o = b ∧ r = r' := by
        have := h'.symm
        simp only [Prod.mk.injEq] at this
        exact ⟨this.1.symm, this.2.1.symm, this.2.2.symm⟩
      subst ha; subst hb; subst hr
      simp [infoLookup]
    · by_cases hab : a = p ∧ b = o
      · exfalso
        have := hhead _ h'
        simp only [keyOf, ne_eq, Prod.mk.injEq] at this
        exact this ⟨hab.1, hab.2⟩
      · simp only [infoLookup, if_neg hab]
        exact ih htl h'

theorem infoLookup_buildInfoAux (q : List (Pid × Nat)) :
    ∀ i d p o, infoLookup (buildInfoAux i q d) p o =
      match lastIdx q p o with
      | some j => some (i + j)
      | none => infoLookup d p o := by
  induction q with
  | nil => intro i d p o; simp [buildInfoAux, lastIdx]
  | cons hd rest ih =>
    obtain ⟨a, b⟩ := hd
    intro i d p o
    simp only [buildInfoAux, lastIdx]
    rw [ih]
    cases hli : lastIdx rest p o with
    | some j =>
      simp only []
      congr 1
      omega
    | none =>
      simp only [infoLookup_upsert]
      by_cases hc : a = p ∧ b = o
      · have hc' : p = a ∧ o = b := ⟨hc.1.symm, hc.2.symm⟩
        rw [if_pos hc, if_pos hc']
        simp
      · have hc' : ¬ (p = a ∧ o = b) := fun h => hc ⟨h.1.symm, h.2.symm⟩
        rw [if_neg hc, if_neg hc']

theorem infoLookup_buildInfo (q : List (Pid × Nat)) (p o : Nat) :
    infoLookup (buildInfo q) p o = lastIdx q p o := by
  rw [buildInfo, infoLookup_buildInfoAux]
  cases h : lastIdx q p o <;> simp [infoLookup]

theorem mem_buildInfo_iff (q : List (Pid × Nat)) (p o r : Nat) :
    (p, o, r) ∈ buildInfo q ↔ lastIdx q p o = some r := by
  constructor
  · intro h
    rw [← infoLookup_buildInfo]
    exact infoLookup_of_mem _ _ _ _ (uniqueKeys_buildInfo q) h
  · intro h
    exact mem_of_infoLookup _ _ _ _ (by rw [infoLookup_buildInfo]; exact h)

/-! ## Lemmas: `lastIdx` is the last occurrence of a query pair -/

theorem lastIdx_none (q : List (Pid × Nat)) (p o : Nat)
    (h : lastIdx q p o = none) : ∀ l : Nat, q[l]? ≠ some (p, o) := by
  induction q with
  | nil => intro l; simp
  | cons hd rest ih =>
    obtain ⟨a, b⟩ := hd
    simp only [lastIdx] at h
    cases hli : lastIdx rest p o with
    | some j => rw [hli] at h; simp at h
    | none =>
      rw [hli] at h
      have hab : ¬ (a = p ∧ b = o) := by
        intro hc
        rw [if_pos hc] at h
        simp at h
      intro l
      cases l with
      | zero =>
        simp only [List.getElem?_cons_zero, ne_eq, Option.some.injEq, Prod.mk.injEq]
        intro hc
        exact hab ⟨hc.1, hc.2⟩
      | succ l' =>
        simp only [List.getElem?_cons_succ]
        exact ih hli l'

theorem lastIdx_some_getElem (q : List (Pid × Nat)) (p o : Nat) :
    ∀ r, lastIdx q p o = some r →
      q[r]? = some (p, o) ∧ ∀ l, r < l → q[l]? ≠ some (p, o) := by
  induction q with
  | nil => intro r h; simp [lastIdx] at h
  | cons hd rest ih =>
    obtain ⟨a, b⟩ := hd
    intro r h
    simp only [lastIdx] at h
    cases hli : lastIdx rest p o with
    | some j =>
      rw [hli] at h
      obtain rfl : j + 1 = r := by injection h
      obtain ⟨hj, hafter⟩ := ih j hli
      refine ⟨by simpa using hj, ?_⟩
      intro l hl
      cases l with
      | zero => omega
      | succ l' =>
        simp only [List.getElem?_cons_succ]
        exact hafter l' (by omega)
    | none =>
      rw [hli] at h
      by_cases hab : a = p ∧ b = o
      · rw [if_pos hab] at h
        obtain rfl : 0 = r := by injection h
        refine ⟨by simp [hab.1, hab.2], ?_⟩
        intro l hl
        cases l with
        | zero => omega
        | succ l' =>
          simp only [List.getElem?_cons_succ]
          exact lastIdx_none rest p o hli l'
      · rw [if_neg hab] at h
        simp at h

theorem lastIdx_eq_some (q : List (Pid × Nat)) (p o : Nat) :
    ∀ r, q[r]? = some (p, o) → (∀ l, r < l → q[l]? ≠ some (p, o)) →
      lastIdx q p o = some r := by
  induction q with
  | nil => intro r h1 _; simp at h1
  | cons hd rest ih =>
    obtain ⟨a, b⟩ := hd
    intro r h1 h2
    cases r with
    | zero =>
      simp only [List.getElem?_cons_zero, Option.some.injEq, Prod.mk.injEq] at h1
      have hnone : lastIdx rest p o = none := by
        cases hli : lastIdx rest p o with
        | none => rfl
        | some j =>
          exfalso
          obtain ⟨hj, _⟩ := lastIdx_some_getElem rest p o j hli
          exact h2 (j + 1) (by omega) (by simpa using hj)
      simp only [lastIdx, hnone]
      rw [if_pos ⟨h1.1, h1.2⟩]
    | succ r' =>
      simp only [List.getElem?_cons_succ] at h1
      have h2' : ∀ l, r' < l → rest[l]? ≠ some (p, o) := by
        intro l hl
        have := h2 (l + 1) (by omega)
        simpa using this
      have := ih r' h1 h2'
      simp only [lastIdx, this]

/-! ## Lemmas: shape and row contents of the scattered output matrix -/

theorem getLastD_append_eq (l1 l2 : List Vec) (w : Vec) :
    (l1 ++ l2).getLastD w = l2.getLastD (l1.getLastD w) := by
  induction l1 generalizing w with
  | nil => simp
  | cons a l1 ih =>
    rw [List.cons_append, List.getLastD_cons, List.getLastD_cons, ih]

theorem scatterPatient_cons_some (out : List Vec) (eo : Nat × Nat)
    (rest : List (Nat × Nat)) (f : Nat → Option Vec) (v : Vec) (hf : f eo.1 = some v) :
    scatterPatient out (eo :: rest) f = scatterPatient (out.set eo.2 v) rest f := by
  simp [scatterPatient, hf]

theorem scatterPatient_cons_none (out : List Vec) (eo : Nat × Nat)
    (rest : List (Nat × Nat)) (f : Nat → Option Vec) (hf : f eo.1 = none) :
    scatterPatient out (eo :: rest) f = scatterPatient out rest f := by
  simp [scatterPatient, hf]

theorem patientWrites_cons_some (eo : Nat × Nat) (rest : List (Nat × Nat))
    (f : Nat → Option Vec) (r : Nat) (v : Vec) (ht : eo.2 = r) (hf : f eo.1 = some v) :
    patientWrites (eo :: rest) f r = v :: patientWrites rest f r := by
  simp [patientWrites, List.filterMap_cons, ht, hf]

theorem patientWrites_cons_skip (eo : Nat × Nat) (rest : List (Nat × Nat))
    (f : Nat → Option Vec) (r : Nat) (h : (if eo.2 = r then f eo.1 else none) = none) :
    patientWrites (eo :: rest) f r = patientWrites rest f r := by
  simp [patientWrites, List.filterMap_cons, h]

theorem scatterPatient_length (entries : List (Nat × Nat)) (f : Nat → Option Vec) :
    ∀ out : List Vec, (scatterPatient out entries f).length = out.length := by
  induction entries with
  | nil => intro out; rfl
  | cons eo rest ih =>
    intro out
    cases hf : f eo.1 with
    | some v =>
      rw [scatterPatient_cons_some out eo rest f v hf, ih, List.length_set]
    | none =>
      rw [scatterPatient_cons_none out eo rest f hf, ih]

theorem scatterPatient_getElem (f : Nat → Option Vec) (r : Nat) :
    ∀ (entries : List (Nat × Nat)) (out : List Vec) (w : Vec), out[r]? = some w →
      (scatterPatient out entries f)[r]? = some ((patientWrites entries f r).getLastD w) := by
  intro entries
  induction entries with
  | nil => intro out w h; simpa [scatterPatient, patientWrites] using h
  | cons eo rest ih =>
    intro out w h
    have hr : r < out.length := by
      by_contra hge
      rw [List.getElem?_eq_none (by omega)] at h
      exact Option.noConfusion h
    cases hf : f eo.1 with
    | some v =>
      by_cases ht : eo.2 = r
      · rw [scatterPatient_cons_some out eo rest f v hf,
            patientWrites_cons_some eo rest f r v ht hf]
        have hset : (out.set eo.2 v)[r]? = some v := by
          subst ht
          exact List.getElem?_set_eq_of_lt v hr
        rw [ih _ v hset, List.getLastD_cons]
      · rw [scatterPatient_cons_some out eo rest f v hf,
            patientWrites_cons_skip eo rest f r (by rw [if_neg ht])]
        have hset : (out.set eo.2 v)[r]? = some w := by
          rw [List.getElem?_set_ne ht]
          exact h
        exact ih _ w hset
    | none =>
      have hskip : (if eo.2 = r then f eo.1 else none) = none := by
        by_cases ht : eo.2 = r <;> simp [ht, hf]
      rw [scatterPatient_cons_none out eo rest f hf,
          patientWrites_cons_skip eo rest f r hskip]
      exact ih out w h

theorem scatterPids_length (d : List (Pid × Nat × Nat)) (emb : Nat → Nat → Option Vec) :
    ∀ (ps : List Pid) (i : Nat) (out : List Vec),
      (scatterPids d emb i ps out).length = out.length := by
  intro ps
  induction ps with
  | nil => intro i out; rfl
  | cons pid rest ih =>
    intro i out
    simp only [scatterPids]
    rw [ih, scatterPatient_length]

theorem scatterPids_getElem (d : List (Pid × Nat × Nat)) (emb : Nat → Nat → Option Vec)
    (r : Nat) :
    ∀ (ps : List Pid) (i : Nat) (out : List Vec) (w : Vec), out[r]? = some w →
      (scatterPids d emb i ps out)[r]? = some ((pidsWrites d emb i ps r).getLastD w) := by
  intro ps
  induction ps with
  | nil => intro i out w h; simpa [scatterPids, pidsWrites] using h
  | cons pid rest ih =>
    intro i out w h
    simp only [scatterPids, pidsWrites]
    have h1 := scatterPatient_getElem (emb i) r (itemsOf d pid) out w h
    have h2 := ih (i + 1) _ _ h1
    rw [h2, getLastD_append_eq]

theorem featurize_fold_length (d : List (Pid × Nat × Nat)) :
    ∀ (batches : List Batch) (out : List Vec),
      (batches.foldl (fun out b => scatterBatch d b out) out).length = out.length := by
  intro batches
  induction batches with
  | nil => intro out; rfl
  | cons b rest ih =>
    intro out
    simp only [List.foldl_cons]
    rw [ih, scatterBatch, scatterPids_length]

theorem featurize_fold_getElem (d : List (Pid × Nat × Nat)) (r : Nat) :
    ∀ (batches : List Batch) (out : List Vec) (w : Vec), out[r]? = some w →
      (batches.foldl (fun out b => scatterBatch d b out) out)[r]? =
        some ((rowWrites d batches r).getLastD w) := by
  intro batches
  induction batches with
  | nil => intro out w h; simpa [rowWrites] using h
  | cons b rest ih =>
    intro out w h
    simp only [List.foldl_cons, rowWrites, List.map_cons, List.flatten_cons]
    have h1 := scatterPids_getElem d b.emb r b.pids 0 out w h
    have h2 := ih _ _ h1
    rw [rowWrites] at h2
    rw [show scatterBatch d b out = scatterPids d b.emb 0 b.pids out from rfl, h2,
      getLastD_append_eq]

/-- Row `r` of the output of `featurize_patients` is the last vector written to
it by the batch stream, or the zero row when nothing wrote to it. -/
theorem featurize_patients_row (cfg : Config) (batches : List Batch)
    (patient_ids day_offsets : List Nat) (r : Nat) (hr : r < patient_ids.length) :
    (featurize_patients cfg batches patient_ids day_offsets)[r]? =
      some ((rowWrites (buildInfo (patient_ids.zip day_offsets)) batches r).getLastD
        (zeroRow cfg)) := by
  have hinit : (List.replicate patient_ids.length (zeroRow cfg))[r]? = some (zeroRow cfg) := by
    rw [List.getElem?_replicate, if_pos hr]
  exact featurize_fold_getElem _ r batches _ _ hinit

theorem featurize_patients_length (cfg : Config) (batches : List Batch)
    (patient_ids day_offsets : List Nat) :
    (featurize_patients cfg batches patient_ids day_offsets).length =
      patient_ids.length := by
  rw [show featurize_patients cfg batches patient_ids day_offsets =
    batches.foldl
      (fun out b => scatterBatch (buildInfo (patient_ids.zip day_offsets)) b out)
      (List.replicate patient_ids.length (zeroRow cfg)) from rfl]
  rw [featurize_fold_length, List.length_replicate]

/-! ## Membership lemmas for the write lists -/

theorem mem_itemsOf (d : List (Pid × Nat × Nat)) (p o t : Nat) :
    (o, t) ∈ itemsOf d p ↔ (p, o, t) ∈ d := by
  simp only [itemsOf, List.mem_map, List.mem_filter, decide_eq_true_eq]
  constructor
  · rintro ⟨⟨e1, e2⟩, ⟨hed, hep⟩, h2⟩
    simp only at hep h2
    subst hep
    subst h2
    exact hed
  · intro h
    exact ⟨(p, o, t), ⟨h, rfl⟩, rfl⟩

theorem mem_patientWrites (entries : List (Nat × Nat)) (f : Nat → Option Vec)
    (r : Nat) (v : Vec) :
    v ∈ patientWrites entries f r ↔ ∃ eo ∈ entries, eo.2 = r ∧ f eo.1 = some v := by
  simp only [patientWrites, List.mem_filterMap]
  constructor
  · rintro ⟨eo, heo, hif⟩
    by_cases ht : eo.2 = r
    · rw [if_pos ht] at hif
      exact ⟨eo, heo, ht, hif⟩
    · rw [if_neg ht] at hif
      exact Option.noConfusion hif
  · rintro ⟨eo, heo, ht, hf⟩
    exact ⟨eo, heo, by rw [if_pos ht]; exact hf⟩

theorem mem_pidsWrites (d : List (Pid × Nat × Nat)) (emb : Nat → Nat → Option Vec)
    (r : Nat) :
    ∀ (ps : List Pid) (i : Nat) (v : Vec),
      v ∈ pidsWrites d emb i ps r ↔
        ∃ k pid, ps[k]? = some pid ∧
          v ∈ patientWrites (itemsOf d pid) (emb (i + k)) r := by
  intro ps
  induction ps with
  | nil => intro i v; simp [pidsWrites]
  | cons pid rest ih =>
    intro i v
    simp only [pidsWrites, List.mem_append, ih (i + 1)]
    constructor
    · rintro (h | ⟨k, pid', hk, hv⟩)
      · exact ⟨0, pid, by simp, by simpa using h⟩
      · refine ⟨k + 1, pid', by simpa using hk, ?_⟩
        rw [show i + (k + 1) = i + 1 + k by omega]
        exact hv
    · rintro ⟨k, pid', hk, hv⟩
      cases k with
      | zero =>
        obtain rfl : pid = pid' := by simpa using hk
        exact Or.inl (by simpa using hv)
      | succ k' =>
        refine Or.inr ⟨k', pid', by simpa using hk, ?_⟩
        rw [show i + 1 + k' = i + (k' + 1) by omega]
        exact hv

theorem mem_rowWrites (d : List (Pid × Nat × Nat)) (batches : List Batch)
    (r : Nat) (v : Vec) :
    v ∈ rowWrites d batches r ↔
      ∃ b ∈ batches, v ∈ pidsWrites d b.emb 0 b.pids r := by
  simp only [rowWrites, List.mem_flatten, List.mem_map]
  constructor
  · rintro ⟨l, ⟨b, hb, rfl⟩, hv⟩
    exact ⟨b, hb, hv⟩
  · rintro ⟨b, hb, hv⟩
    exact ⟨pidsWrites d b.emb 0 b.pids r, ⟨b, hb, rfl⟩, hv⟩

/-! ## Row length invariants -/

theorem scatterPatient_rows (f : Nat → Option Vec) (s : Nat)
    (hf : ∀ o v, f o = some v → v.length = s) :
    ∀ (entries : List (Nat × Nat)) (out : List Vec),
      (∀ row ∈ out, row.length = s) →
      ∀ row ∈ scatterPatient out entries f, row.length = s := by
  intro entries
  induction entries with
  | nil => intro out h; exact h
  | cons eo rest ih =>
    intro out h
    cases hfe : f eo.1 with
    | some v =>
      rw [scatterPatient_cons_some out eo rest f v hfe]
      refine ih (out.set eo.2 v) ?_
      intro row hrow
      rcases List.mem_or_eq_of_mem_set hrow with h' | h'
      · exact h row h'
      · rw [h']
        exact hf eo.1 v hfe
    | none =>
      rw [scatterPatient_cons_none out eo rest f hfe]
      exact ih out h

theorem scatterPids_rows (d : List (Pid × Nat × Nat)) (emb : Nat → Nat → Option Vec)
    (s : Nat) (hf : ∀ i o v, emb i o = some v → v.length = s) :
    ∀ (ps : List Pid) (i : Nat) (out : List Vec),
      (∀ row ∈ out, row.length = s) →
      ∀ row ∈ scatterPids d emb i ps out, row.length = s := by
  intro ps
  induction ps with
  | nil => intro i out h; exact h
  | cons pid rest ih =>
    intro i out h
    simp only [scatterPids]
    exact ih (i + 1) _ (scatterPatient_rows (emb i) s (fun o v => hf i o v) _ out h)

theorem featurize_fold_rows (d : List (Pid × Nat × Nat)) (s : Nat) :
    ∀ (batches : List Batch),
      (∀ b ∈ batches, ∀ i o v, b.emb i o = some v → v.length = s) →
      ∀ (out : List Vec), (∀ row ∈ out, row.length = s) →
      ∀ row ∈ batches.foldl (fun out b => scatterBatch d b out) out, row.length = s := by
  intro batches
  induction batches with
  | nil => intro _ out h; exact h
  | cons b rest ih =>
    intro hemb out h
    simp only [List.foldl_cons]
    refine ih (fun b' hb' => hemb b' (List.mem_cons_of_mem _ hb')) _ ?_
    exact scatterPids_rows d b.emb s (hemb b (List.mem_cons_self _ _)) b.pids 0 out h

theorem featurize_patients_rows (cfg : Config) (batches : List Batch)
    (patient_ids day_offsets : List Nat)
    (hemb : ∀ b ∈ batches, ∀ i o v, b.emb i o = some v → v.length = cfg.size) :
    ∀ row ∈ featurize_patients cfg batches patient_ids day_offsets,
      row.length = cfg.size := by
  refine featurize_fold_rows _ cfg.size batches hemb _ ?_
  intro row hrow
  rw [List.eq_of_mem_replicate hrow, zeroRow, List.length_replicate]

/-! ## Helper lemmas for the duplicate-query analysis -/

theorem itemsOf_offsets_pairwise (d : List (Pid × Nat × Nat)) (p : Pid)
    (hu : uniqueKeys d) :
    (itemsOf d p).Pairwise (fun eo eo' => eo.1 ≠ eo'.1) := by
  rw [itemsOf, List.pairwise_map]
  refine List.Pairwise.imp_of_mem ?_ (hu.filter (fun e => decide (e.1 = p)))
  intro e e' he he'
  rw [List.mem_filter, decide_eq_true_eq] at he he'
  intro hk hcontra
  apply hk
  simp only [keyOf, he.2, he'.2]
  rw [hcontra]

theorem patientWrites_empty_of_no_offset (f : Nat → Option Vec) (r o : Nat) (v : Vec)
    (hf : ∀ t, f t = if t = o then some v else none) :
    ∀ entries : List (Nat × Nat), (∀ eo ∈ entries, eo.1 ≠ o) →
      patientWrites entries f r = [] := by
  intro entries
  induction entries with
  | nil => intro _; rfl
  | cons eo rest ih =>
    intro h
    have hfe : f eo.1 = none := by
      rw [hf eo.1, if_neg (h eo (List.mem_cons_self _ _))]
    rw [patientWrites_cons_skip eo rest f r (by rw [hfe]; split <;> rfl)]
    exact ih (fun eo' h' => h eo' (List.mem_cons_of_mem _ h'))

theorem patientWrites_single (f : Nat → Option Vec) (r o : Nat) (v : Vec)
    (hf : ∀ t, f t = if t = o then some v else none) :
    ∀ entries : List (Nat × Nat),
      (o, r) ∈ entries →
      entries.Pairwise (fun eo eo' => eo.1 ≠ eo'.1) →
      patientWrites entries f r = [v] := by
  intro entries
  induction entries with
  | nil => intro h _; simp at h
  | cons eo rest ih =>
    intro hmem hpw
    rw [List.pairwise_cons] at hpw
    obtain ⟨hhead, htail⟩ := hpw
    rcases List.mem_cons.mp hmem with heq | hrest
    · have h1 : eo.1 = o := by rw [← heq]
      have h2 : eo.2 = r := by rw [← heq]
      have hfe : f eo.1 = some v := by rw [hf eo.1, if_pos h1]
      rw [patientWrites_cons_some eo rest f r v h2 hfe]
      have hrest0 : patientWrites rest f r = [] := by
        refine patientWrites_empty_of_no_offset f r o v hf rest ?_
        intro eo' h'
        have := hhead eo' h'
        rw [h1] at this
        exact fun hc => this hc.symm
      rw [hrest0]
    · have h1 : eo.1 ≠ o := by
        have := hhead (o, r) hrest
        simpa using this
      have hfe : f eo.1 = none := by rw [hf eo.1, if_neg h1]
      rw [patientWrites_cons_skip eo rest f r (by rw [hfe]; split <;> rfl)]
      exact ih hrest htail

/-! ## Claim C1 -/

/-- C1: for parallel query sequences `patient_ids`, `day_offsets` of equal
length N, `featurize_patients` returns an N x embedding_size matrix
(embedding_size = `config["size"]`) initialized to zero (with no batches the
result is exactly the zero matrix), in which row i is the embedding scattered
for `(patient_ids[i], day_offsets[i])`; a requested pair whose offset is not
included in any streamed batch's window for that patient leaves its output row
all-zero, and no error is raised (the embedded function is total and returns a
matrix of the stated shape on every input). -/
theorem claim_C1 (cfg : Config) (batches : List Batch)
    (patient_ids day_offsets : List Nat)
    (hlen : day_offsets.length = patient_ids.length)
    (hemb : ∀ b ∈ batches, ∀ i o v, b.emb i o = some v → v.length = cfg.size) :
    (featurize_patients cfg batches patient_ids day_offsets).length =
      patient_ids.length ∧
    (∀ row ∈ featurize_patients cfg batches patient_ids day_offsets,
      row.length = cfg.size) ∧
    featurize_patients cfg [] patient_ids day_offsets =
      List.replicate patient_ids.length (zeroRow cfg) ∧
    (∀ i p o : Nat, patient_ids[i]? = some p → day_offsets[i]? = some o →
      (∀ b ∈ batches, ∀ k, b.pids[k]? = some p → b.emb k o = none) →
      (featurize_patients cfg batches patient_ids day_offsets)[i]? =
        some (zeroRow cfg)) := by
  refine ⟨featurize_patients_length cfg batches _ _,
    featurize_patients_rows cfg batches _ _ hemb, rfl, ?_⟩
  intro i p o hp ho huncov
  have hi : i < patient_ids.length := (List.getElem?_eq_some.mp hp).1
  have hq : (patient_ids.zip day_offsets)[i]? = some (p, o) :=
    List.getElem?_zip_eq_some.mpr ⟨hp, ho⟩
  rw [featurize_patients_row cfg batches _ _ i hi]
  have hempty : rowWrites (buildInfo (patient_ids.zip day_offsets)) batches i = [] := by
    rw [List.eq_nil_iff_forall_not_mem]
    intro v hv
    rw [mem_rowWrites] at hv
    obtain ⟨b, hb, hv⟩ := hv
    rw [mem_pidsWrites] at hv
    obtain ⟨k, pid, hk, hv⟩ := hv
    rw [mem_patientWrites] at hv
    obtain ⟨⟨o', t⟩, heo, ht, hfe⟩ := hv
    simp only at ht hfe
    subst ht
    rw [mem_itemsOf, mem_buildInfo_iff] at heo
    obtain ⟨hqi, _⟩ := lastIdx_some_getElem _ _ _ _ heo
    rw [hq] at hqi
    obtain ⟨h1, h2⟩ : p = pid ∧ o = o' := by
      have := hqi
      simp only [Option.some.injEq, Prod.mk.injEq] at this
      exact this
    subst h1
    subst h2
    rw [show (0 : Nat) + k = k by omega] at hfe
    rw [huncov b hb k hk] at hfe
    exact Option.noConfusion hfe
  rw [hempty]
  rfl

def cfgW1 : Config := ⟨2, 0, 0, 1, 1, 1, 0, 0, 0, 0, 0, 0, 0⟩

def batchW1 : Batch := ⟨[7], fun _ _ => none⟩

theorem claim_C1_witness :
    (featurize_patients cfgW1 [batchW1] [7] [3]).length = [7].length ∧
    (∀ row ∈ featurize_patients cfgW1 [batchW1] [7] [3],
      row.length = cfgW1.size) ∧
    featurize_patients cfgW1 [] [7] [3] =
      List.replicate [7].length (zeroRow cfgW1) ∧
    (∀ i p o : Nat, [7][i]? = some p → [3][i]? = some o →
      (∀ b ∈ [batchW1], ∀ k, b.pids[k]? = some p → b.emb k o = none) →
      (featurize_patients cfgW1 [batchW1] [7] [3])[i]? =
        some (zeroRow cfgW1)) :=
  claim_C1 cfgW1 [batchW1] [7] [3] rfl
    (fun b hb i o v h => by
      rw [List.mem_singleton] at hb
      subst hb
      exact Option.noConfusion h)

/-! ## Claim C2 -/

/-- C2: when the same `(patient_id, day_offset)` pair appears at query
positions i < j, with j its last occurrence, the patient index retains only
the later position j (last write wins); after the scatter step only the row
the index retained can be populated: row i is never written (it stays the zero
row for every batch stream), while row j receives the pair's embedding
whenever a batch covers that patient at that offset. -/
theorem claim_C2 (cfg : Config) (patient_ids day_offsets : List Nat)
    (p o i j : Nat)
    (hij : i < j)
    (hi : (patient_ids.zip day_offsets)[i]? = some (p, o))
    (hj : (patient_ids.zip day_offsets)[j]? = some (p, o))
    (hlast : ∀ l : Nat, j < l → (patient_ids.zip day_offsets)[l]? ≠ some (p, o)) :
    infoLookup (buildInfo (patient_ids.zip day_offsets)) p o = some j ∧
    (∀ batches : List Batch,
      (featurize_patients cfg batches patient_ids day_offsets)[i]? =
        some (zeroRow cfg)) ∧
    (∀ (b : Batch) (v : Vec),
      b.pids = [p] →
      b.emb = (fun k t => if k = 0 ∧ t = o then some v else none) →
      (featurize_patients cfg [b] patient_ids day_offsets)[j]? = some v) := by
  have hlj : lastIdx (patient_ids.zip day_offsets) p o = some j :=
    lastIdx_eq_some _ p o j hj hlast
  refine ⟨by rw [infoLookup_buildInfo]; exact hlj, ?_, ?_⟩
  · intro batches
    have hiq : i < (patient_ids.zip day_offsets).length := (List.getElem?_eq_some.mp hi).1
    have hilen : i < patient_ids.length := by
      rw [List.length_zip] at hiq
      omega
    rw [featurize_patients_row cfg batches _ _ i hilen]
    have hempty : rowWrites (buildInfo (patient_ids.zip day_offsets)) batches i = [] := by
      rw [List.eq_nil_iff_forall_not_mem]
      intro v hv
      rw [mem_rowWrites] at hv
      obtain ⟨b, hb, hv⟩ := hv
      rw [mem_pidsWrites] at hv
      obtain ⟨k, pid, hk, hv⟩ := hv
      rw [mem_patientWrites] at hv
      obtain ⟨⟨o', t⟩, heo, ht, hfe⟩ := hv
      simp only at ht hfe
      subst ht
      rw [mem_itemsOf, mem_buildInfo_iff] at heo
      obtain ⟨hqi, _⟩ := lastIdx_some_getElem _ _ _ _ heo
      rw [hi] at hqi
      obtain ⟨h1, h2⟩ : p = pid ∧ o = o' := by
        have := hqi
        simp only [Option.some.injEq, Prod.mk.injEq] at this
        exact this
      subst h1
      subst h2
      rw [heo] at hlj
      have hcontra : t = j := by injection hlj
      omega
    rw [hempty]
    rfl
  · intro b v hbp hbe
    have hjq : j < (patient_ids.zip day_offsets).length := (List.getElem?_eq_some.mp hj).1
    have hjlen : j < patient_ids.length := by
      rw [List.length_zip] at hjq
      omega
    rw [featurize_patients_row cfg [b] _ _ j hjlen]
    have hf : ∀ t, b.emb 0 t = if t = o then some v else none := by
      intro t
      rw [hbe]
      simp
    have hmem : (o, j) ∈ itemsOf (buildInfo (patient_ids.zip day_offsets)) p := by
      rw [mem_itemsOf, mem_buildInfo_iff]
      exact hlj
    have hpw := itemsOf_offsets_pairwise (buildInfo (patient_ids.zip day_offsets)) p
      (uniqueKeys_buildInfo _)
    have hsingle := patientWrites_single (b.emb 0) j o v hf _ hmem hpw
    have hrw : rowWrites (buildInfo (patient_ids.zip day_offsets)) [b] j = [v] := by
      rw [rowWrites, List.map_cons, List.map_nil, List.flatten_cons, List.flatten_nil,
        List.append_nil, hbp]
      rw [show pidsWrites (buildInfo (patient_ids.zip day_offsets)) b.emb 0 [p] j =
        patientWrites (itemsOf (buildInfo (patient_ids.zip day_offsets)) p) (b.emb 0) j ++ [] from rfl]
      rw [List.append_nil, hsingle]
    rw [hrw]
    rfl

def cfgW2 : Config := ⟨1, 0, 0, 1, 1, 1, 0, 0, 0, 0, 0, 0, 0⟩

theorem claim_C2_witness :
    infoLookup (buildInfo ([4, 4].zip [5, 5])) 4 5 = some 1 ∧
    (∀ batches : List Batch,
      (featurize_patients cfgW2 batches [4, 4] [5, 5])[0]? =
        some (zeroRow cfgW2)) ∧
    (∀ (b : Batch) (v : Vec),
      b.pids = [4] →
      b.emb = (fun k t => if k = 0 ∧ t = 5 then some v else none) →
      (featurize_patients cfgW2 [b] [4, 4] [5, 5])[1]? = some v) :=
  claim_C2 cfgW2 [4, 4] [5, 5] 4 5 0 1 (by omega) rfl rfl
    (fun l hl => by
      rw [List.getElem?_eq_none (by rw [List.length_zip]; simp; omega)]
      exact fun h => Option.noConfusion h)

/-! ## The training loop `fit` (lines 87-140)

The externals are oracles: `EpochOracle` gives, for each epoch, the outcome of
the training-batch loop of `_train_epoch` (lines 58-85), the two `evaluate`
calls of lines 115-116 (which may also raise), and the value drawn by
`random.randint(0, 100000)` for the epoch's `DataLoader` seed.  `fit` is
embedded as a state machine producing an event trace (optimizer construction,
DataLoader acquire/release, loss-log writes and flushes, checkpoint deletion
and saving, loss-log close) together with the loss-log file contents and the
checkpoint state; an exception anywhere propagates and aborts the loop. -/

inductive Ev where
  | buildOpt (params : List Nat) (warmup : ℚ) (tTotal : Nat)
  | openLoss
  | acquire (seed : Nat)
  | release
  | flush
  | deleteBest
  | saveBest (epoch : Nat)
  | closeLoss
deriving DecidableEq

/-- The `OpenAIAdam` optimizer handle, holding the arguments the featurizer
passes to its constructor. -/
structure OpenAIAdam where
  params : List Nat
  lr : ℚ
  warmup : ℚ
  tTotal : Nat
  b1 : ℚ
  b2 : ℚ
  eps : ℚ
  l2 : ℚ

/-- `_build_adam_optimizer` (lines 34-56): collect the parameters with
`requires_grad`, and build an `OpenAIAdam` with a warmup_linear schedule,
`warmup = warmup_epochs / epochs_per_cycle` and
`t_total = dataset.num_batches(batch_size, False) * epochs_per_cycle`. -/
def build_adam_optimizer (mdl : ModelParams) (cfg : Config) (ds : Dataset) : OpenAIAdam :=
  { params := (mdl.namedParameters.filter (fun pr => pr.2)).map (fun pr => pr.1),
    lr := cfg.lr,
    warmup := cfg.warmup_epochs / (cfg.epochs_per_cycle : ℚ),
    tTotal := ds.numBatches cfg.batch_size false * cfg.epochs_per_cycle,
    b1 := cfg.b1,
    b2 := cfg.b2,
    eps := cfg.e,
    l2 := cfg.l2 }

/-- Per-epoch oracles for the external collaborators consumed by `fit`. -/
structure EpochOracle where
  trainResult : Nat → Except Unit Unit
  trainLoss : Nat → Except Unit ℚ
  valLoss : Nat → Except Unit ℚ
  seed : Nat → Nat

/-- The Python `with DataLoader(...) as batches:` block: `__exit__` releases
the loader on every exit path, so the release event follows the acquire event
regardless of whether the body raised. -/
def withDataLoader {α : Type} (seed : Nat) (body : Except Unit α) :
    Except Unit α × List Ev :=
  (body, [Ev.acquire seed, Ev.release])

/-- The featurizer state that `fit` threads through the epochs: the event
trace, the loss-log contents (one `(epoch, train_loss, val_loss)` entry per
flush), the flushed snapshots of the file after each flush, the running
`best_val_loss` with its epoch, the epoch whose parameters the `best` artifact
holds (from this run), and whether a `best` file exists on disk. -/
structure FitState where
  events : List Ev
  content : List (Nat × ℚ × ℚ)
  snaps : List (List (Nat × ℚ × ℚ))
  best : Option (ℚ × Nat)
  artifact : Option Nat
  present : Bool
deriving DecidableEq

/-- The strict-improvement test of line 127:
`best_val_loss is None or val_loss < best_val_loss`. -/
def improves : Option (ℚ × Nat) → ℚ → Bool
  | none, _ => true
  | some bp, v => decide (v < bp.1)

/-- One iteration of the epoch loop (lines 106-135): train (a `with` block
over a freshly seeded DataLoader), evaluate train and val loss (each a `with`
block over a seed-0 DataLoader inside `evaluate`), append and flush the loss
log, and checkpoint when the validation loss strictly improves (deleting any
existing `best` file first).  An exception from any step propagates with the
side effects performed so far. -/
def fitEpoch (orc : EpochOracle) (e : Nat) (s : FitState) :
    FitState × Except Unit Unit :=
  let tr := withDataLoader (orc.seed e) (orc.trainResult e)
  let s1 : FitState := { s with events := s.events ++ tr.2 }
  match tr.1 with
  | .error u => (s1, .error u)
  | .ok _ =>
    let ev1 := withDataLoader 0 (orc.trainLoss e)
    let s2 : FitState := { s1 with events := s1.events ++ ev1.2 }
    match ev1.1 with
    | .error u => (s2, .error u)
    | .ok trainLoss =>
      let ev2 := withDataLoader 0 (orc.valLoss e)
      let s3 : FitState := { s2 with events := s2.events ++ ev2.2 }
      match ev2.1 with
      | .error u => (s3, .error u)
      | .ok valLoss =>
        let content := s3.content ++ [(e, trainLoss, valLoss)]
        let s4 : FitState := { s3 with
          content := content,
          snaps := s3.snaps ++ [content],
          events := s3.events ++ [Ev.flush] }
        if improves s4.best valLoss then
          ({ s4 with
              best := some (valLoss, e),
              artifact := some e,
              present := true,
              events := s4.events ++
                (if s4.present then [Ev.deleteBest] else []) ++ [Ev.saveBest e] },
            .ok ())
        else (s4, .ok ())

/-- The epoch loop `for epoch in range(num_epochs)`, starting at epoch `e`
with `n` epochs remaining; an exception aborts the remaining iterations. -/
def fitLoop (orc : EpochOracle) : Nat → Nat → FitState → FitState × Except Unit Unit
  | _, 0, s => (s, .ok ())
  | e, n + 1, s =>
      match fitEpoch orc e s with
      | (s', .ok _) => fitLoop orc (e + 1) n s'
      | (s', .error u) => (s', .error u)

/-- The initial state of a `fit` call: the optimizer is built once (line 93),
the loss file is opened (line 103); `present` records whether a `best`
artifact already exists on disk when `fit` starts. -/
def fitInit (opt : OpenAIAdam) (present : Bool) : FitState :=
  { events := [Ev.buildOpt opt.params opt.warmup opt.tTotal, Ev.openLoss],
    content := [],
    snaps := [],
    best := none,
    artifact := none,
    present := present }

/-- `fit` (lines 87-140): build the optimizer, open the loss log, run
`epochs_per_cycle` epochs, and close the loss file (line 139) - the close is
reached only on the normal path, since the source has no try/finally around
the loop. -/
def fit (orc : EpochOracle) (cfg : Config) (mdl : ModelParams) (ds : Dataset)
    (present : Bool) : FitState × Except Unit Unit :=
  let opt := build_adam_optimizer mdl cfg ds
  match fitLoop orc 0 cfg.epochs_per_cycle (fitInit opt present) with
  | (s, .ok _) => ({ s with events := s.events ++ [Ev.closeLoss] }, .ok ())
  | (s, .error u) => (s, .error u)

/-! ## The all-epochs-succeed characterization of the epoch loop -/

/-- The pure effect of one successful epoch (the ok path of `fitEpoch`). -/
def simEpoch (sd : Nat) (tr vl : ℚ) (e : Nat) (s : FitState) : FitState :=
  let s1 : FitState := { s with events := s.events ++ [Ev.acquire sd, Ev.release] }
  let s2 : FitState := { s1 with events := s1.events ++ [Ev.acquire 0, Ev.release] }
  let s3 : FitState := { s2 with events := s2.events ++ [Ev.acquire 0, Ev.release] }
  let content := s3.content ++ [(e, tr, vl)]
  let s4 : FitState := { s3 with
    content := content,
    snaps := s3.snaps ++ [content],
    events := s3.events ++ [Ev.flush] }
  if improves s4.best vl then
    { s4 with
        best := some (vl, e),
        artifact := some e,
        present := true,
        events := s4.events ++
          (if s4.present then [Ev.deleteBest] else []) ++ [Ev.saveBest e] }
  else s4

/-- The pure effect of a run of successful epochs. -/
def simLoop (seedF : Nat → Nat) (trF vlF : Nat → ℚ) :
    Nat → Nat → FitState → FitState
  | _, 0, s => s
  | e, n + 1, s =>
      simLoop seedF trF vlF (e + 1) n (simEpoch (seedF e) (trF e) (vlF e) e s)

theorem fitEpoch_ok (orc : EpochOracle) (e : Nat) (s : FitState) (tr vl : ℚ)
    (h1 : orc.trainResult e = .ok ())
    (h2 : orc.trainLoss e = .ok tr)
    (h3 : orc.valLoss e = .ok vl) :
    fitEpoch orc e s = (simEpoch (orc.seed e) tr vl e s, .ok ()) := by
  simp only [fitEpoch, withDataLoader, h1, h2, h3, simEpoch]
  split <;> rfl

theorem fitLoop_ok (orc : EpochOracle) (trF vlF : Nat → ℚ) :
    ∀ (n e : Nat) (s : FitState),
      (∀ k, k < n → orc.trainResult (e + k) = .ok () ∧
        orc.trainLoss (e + k) = .ok (trF (e + k)) ∧
        orc.valLoss (e + k) = .ok (vlF (e + k))) →
      fitLoop orc e n s = (simLoop orc.seed trF vlF e n s, .ok ()) := by
  intro n
  induction n with
  | zero => intro e s _; rfl
  | succ n ih =>
    intro e s hok
    obtain ⟨h1, h2, h3⟩ := hok 0 (by omega)
    simp only [Nat.add_zero] at h1 h2 h3
    simp only [fitLoop, fitEpoch_ok orc e s (trF e) (vlF e) h1 h2 h3, simLoop]
    exact ih (e + 1) _ (fun k hk => by
      have := hok (k + 1) (by omega)
      rw [show e + (k + 1) = e + 1 + k by omega] at this
      exact this)

/-! ## Projections of one successful epoch -/

theorem simEpoch_content (sd : Nat) (tr vl : ℚ) (e : Nat) (s : FitState) :
    (simEpoch sd tr vl e s).content = s.content ++ [(e, tr, vl)] := by
  simp only [simEpoch]
  split <;> rfl

theorem simEpoch_snaps (sd : Nat) (tr vl : ℚ) (e : Nat) (s : FitState) :
    (simEpoch sd tr vl e s).snaps = s.snaps ++ [s.content ++ [(e, tr, vl)]] := by
  simp only [simEpoch]
  split <;> rfl

theorem simEpoch_best (sd : Nat) (tr vl : ℚ) (e : Nat) (s : FitState) :
    (simEpoch sd tr vl e s).best =
      if improves s.best vl then some (vl, e) else s.best := by
  simp only [simEpoch]
  split <;> simp_all

theorem simEpoch_artifact (sd : Nat) (tr vl : ℚ) (e : Nat) (s : FitState) :
    (simEpoch sd tr vl e s).artifact =
      if improves s.best vl then some e else s.artifact := by
  simp only [simEpoch]
  split <;> simp_all

theorem simEpoch_present (sd : Nat) (tr vl : ℚ) (e : Nat) (s : FitState) :
    (simEpoch sd tr vl e s).present =
      if improves s.best vl then true else s.present := by
  simp only [simEpoch]
  split <;> simp_all

theorem simEpoch_events (sd : Nat) (tr vl : ℚ) (e : Nat) (s : FitState) :
    (simEpoch sd tr vl e s).events =
      s.events ++
        [Ev.acquire sd, Ev.release, Ev.acquire 0, Ev.release,
          Ev.acquire 0, Ev.release, Ev.flush] ++
        (if improves s.best vl then
          (if s.present then [Ev.deleteBest] else []) ++ [Ev.saveBest e]
        else []) := by
  simp only [simEpoch]
  split <;> simp [List.append_assoc]

/-! ## Loss-log contents and snapshots over a successful run -/

theorem simLoop_content (seedF : Nat → Nat) (trF vlF : Nat → ℚ) :
    ∀ (n e : Nat) (s : FitState),
      (simLoop seedF trF vlF e n s).content =
        s.content ++ (List.range' e n).map (fun k => (k, trF k, vlF k)) := by
  intro n
  induction n with
  | zero => intro e s; simp [simLoop]
  | succ n ih =>
    intro e s
    simp only [simLoop]
    rw [ih, simEpoch_content, List.range'_succ, List.map_cons]
    simp [List.append_assoc]

theorem simLoop_snaps (seedF : Nat → Nat) (trF vlF : Nat → ℚ) :
    ∀ (n e : Nat) (s : FitState),
      (simLoop seedF trF vlF e n s).snaps =
        s.snaps ++ (List.range n).map
          (fun j => s.content ++ (List.range' e (j + 1)).map (fun k => (k, trF k, vlF k))) := by
  intro n
  induction n with
  | zero => intro e s; simp [simLoop]
  | succ n ih =>
    intro e s
    simp only [simLoop]
    rw [ih, simEpoch_snaps, simEpoch_content]
    rw [List.range_succ_eq_map, List.map_cons, List.map_map]
    have hmap : (List.range n).map ((fun j => s.content ++
          (List.range' e (j + 1)).map (fun k => (k, trF k, vlF k))) ∘ Nat.succ) =
        (List.range n).map (fun j => (s.content ++ [(e, trF e, vlF e)]) ++
          (List.range' (e + 1) (j + 1)).map (fun k => (k, trF k, vlF k))) := by
      refine List.map_congr_left (fun j _ => ?_)
      simp only [Function.comp_apply]
      rw [show Nat.succ j + 1 = (j + 1) + 1 from rfl, List.range'_succ, List.map_cons]
      simp [List.append_assoc]
    rw [hmap]
    have hg0 : s.content ++ (List.range' e (0 + 1)).map (fun k => (k, trF k, vlF k)) =
        s.content ++ [(e, trF e, vlF e)] := by
      rw [show (0 : Nat) + 1 = 1 from rfl, List.range'_succ, List.range'_zero, List.map_cons,
        List.map_nil]
    rw [hg0]
    simp [List.append_assoc]

/-! ## The running best-checkpoint state over a successful run -/

/-- The pure evolution of `(best_val_loss, best_val_loss_epoch)` over the
epochs (line 127-129). -/
def bestFold (vlF : Nat → ℚ) : Nat → Nat → Option (ℚ × Nat) → Option (ℚ × Nat)
  | _, 0, b => b
  | e, n + 1, b =>
      bestFold vlF (e + 1) n (if improves b (vlF e) then some (vlF e, e) else b)

theorem simLoop_best (seedF : Nat → Nat) (trF vlF : Nat → ℚ) :
    ∀ (n e : Nat) (s : FitState),
      (simLoop seedF trF vlF e n s).best = bestFold vlF e n s.best := by
  intro n
  induction n with
  | zero => intro e s; rfl
  | succ n ih =>
    intro e s
    simp only [simLoop, bestFold]
    rw [ih, simEpoch_best]

theorem simLoop_artifact_link (seedF : Nat → Nat) (trF vlF : Nat → ℚ) :
    ∀ (n e : Nat) (s : FitState),
      (∀ pr : ℚ × Nat, s.best = some pr → s.artifact = some pr.2) →
      ∀ pr : ℚ × Nat, (simLoop seedF trF vlF e n s).best = some pr →
        (simLoop seedF trF vlF e n s).artifact = some pr.2 := by
  intro n
  induction n with
  | zero => intro e s h; exact h
  | succ n ih =>
    intro e s h
    simp only [simLoop]
    refine ih (e + 1) _ ?_
    intro pr hpr
    rw [simEpoch_best] at hpr
    rw [simEpoch_artifact]
    by_cases himp : improves s.best (vlF e) = true
    · rw [if_pos himp] at hpr
      rw [if_pos himp]
      obtain rfl : (vlF e, e) = pr := by injection hpr
      rfl
    · rw [if_neg himp] at hpr
      rw [if_neg himp]
      exact h pr hpr

theorem improves_some_iff (b : ℚ) (j : Nat) (v : ℚ) :
    improves (some (b, j)) v = true ↔ v < b := by
  simp [improves]

theorem bestFold_some_spec (vlF : Nat → ℚ) :
    ∀ (n e : Nat) (b : ℚ) (j : Nat),
      ∃ m i, bestFold vlF e n (some (b, j)) = some (m, i) ∧
        m ≤ b ∧ (∀ k, k < n → m ≤ vlF (e + k)) ∧
        ((i = j ∧ m = b ∧ ∀ k, k < n → b ≤ vlF (e + k)) ∨
         (e ≤ i ∧ i < e + n ∧ vlF i = m ∧ m < b ∧
           ∀ k, e ≤ k → k < i → m < vlF k)) := by
  intro n
  induction n with
  | zero =>
    intro e b j
    exact ⟨b, j, rfl, le_refl b, by omega, Or.inl ⟨rfl, rfl, by omega⟩⟩
  | succ n ih =>
    intro e b j
    simp only [bestFold]
    by_cases himp : vlF e < b
    · rw [if_pos ((improves_some_iff b j (vlF e)).mpr himp)]
      obtain ⟨m, i, heq, hmb, hwin, hdisj⟩ := ih (e + 1) (vlF e) e
      refine ⟨m, i, heq, le_trans hmb (le_of_lt himp), ?_, Or.inr ?_⟩
      · intro k hk
        cases k with
        | zero => simpa using hmb
        | succ k' =>
          have := hwin k' (by omega)
          rw [show e + 1 + k' = e + (k' + 1) by omega] at this
          exact this
      · rcases hdisj with ⟨rfl, rfl, _⟩ | ⟨hle, hlt, hvi, hmlt, hfirst⟩
        · exact ⟨by omega, by omega, rfl, himp, fun k hk1 hk2 => by omega⟩
        · refine ⟨by omega, by omega, hvi, lt_trans hmlt himp, ?_⟩
          intro k hk1 hk2
          by_cases hke : k = e
          · subst hke
            exact hmlt
          · exact hfirst k (by omega) hk2
    · rw [if_neg (by rw [improves_some_iff]; exact himp)]
      have hble : b ≤ vlF e := not_lt.mp himp
      obtain ⟨m, i, heq, hmb, hwin, hdisj⟩ := ih (e + 1) b j
      refine ⟨m, i, heq, hmb, ?_, ?_⟩
      · intro k hk
        cases k with
        | zero => simpa using le_trans hmb hble
        | succ k' =>
          have := hwin k' (by omega)
          rw [show e + 1 + k' = e + (k' + 1) by omega] at this
          exact this
      · rcases hdisj with ⟨hi, hm, hall⟩ | ⟨hle, hlt, hvi, hmlt, hfirst⟩
        · refine Or.inl ⟨hi, hm, ?_⟩
          intro k hk
          cases k with
          | zero => simpa using hble
          | succ k' =>
            have := hall k' (by omega)
            rw [show e + 1 + k' = e + (k' + 1) by omega] at this
            exact this
        · refine Or.inr ⟨by omega, by omega, hvi, hmlt, ?_⟩
          intro k hk1 hk2
          by_cases hke : k = e
          · subst hke
            exact lt_of_lt_of_le hmlt hble
          · exact hfirst k (by omega) hk2

theorem bestFold_none_spec (vlF : Nat → ℚ) (n e : Nat) (hn : 1 ≤ n) :
    ∃ m i, bestFold vlF e n none = some (m, i) ∧
      e ≤ i ∧ i < e + n ∧ vlF i = m ∧
      (∀ k, e ≤ k → k < e + n → m ≤ vlF k) ∧
      (∀ k, e ≤ k → k < i → m < vlF k) := by
  obtain ⟨n', rfl⟩ : ∃ n', n = n' + 1 := ⟨n - 1, by omega⟩
  have hstep : bestFold vlF e (n' + 1) none =
      bestFold vlF (e + 1) n' (some (vlF e, e)) := by
    simp [bestFold, improves]
  rw [hstep]
  obtain ⟨m, i, heq, hmb, hwin, hdisj⟩ := bestFold_some_spec vlF n' (e + 1) (vlF e) e
  rcases hdisj with ⟨hi, hm, hall⟩ | ⟨hle, hlt, hvi, hmlt, hfirst⟩
  · refine ⟨m, i, heq, by omega, by omega, by rw [hi, hm], ?_, fun k hk1 hk2 => by omega⟩
    intro k hk1 hk2
    by_cases hke : k = e
    · subst hke
      exact le_of_eq hm
    · have := hall (k - (e + 1)) (by omega)
      rw [show e + 1 + (k - (e + 1)) = k by omega] at this
      rw [hm]
      exact this
  · refine ⟨m, i, heq, by omega, by omega, hvi, ?_, ?_⟩
    · intro k hk1 hk2
      by_cases hke : k = e
      · subst hke
        exact le_of_lt hmlt
      · have := hwin (k - (e + 1)) (by omega)
        rw [show e + 1 + (k - (e + 1)) = k by omega] at this
        exact this
    · intro k hk1 hk2
      by_cases hke : k = e
      · subst hke
        exact hmlt
      · exact hfirst k (by omega) hk2

/-! ## Which epochs write the `best` artifact -/

/-- The condition of line 127, `best_val_loss is None or val_loss <
best_val_loss`, as a proposition. -/
def beats (b : Option (ℚ × Nat)) (v : ℚ) : Prop :=
  ∀ pr : ℚ × Nat, b = some pr → v < pr.1

theorem improves_iff_beats (b : Option (ℚ × Nat)) (v : ℚ) :
    improves b v = true ↔ beats b v := by
  cases b with
  | none => simp [improves, beats]
  | some pr => simp [improves, beats]

theorem simLoop_saveMem (seedF : Nat → Nat) (trF vlF : Nat → ℚ) :
    ∀ (n e : Nat) (s : FitState) (x : Nat),
      Ev.saveBest x ∈ (simLoop seedF trF vlF e n s).events ↔
        Ev.saveBest x ∈ s.events ∨
          ∃ k, k < n ∧ x = e + k ∧ beats s.best (vlF (e + k)) ∧
            ∀ l, l < k → vlF (e + k) < vlF (e + l) := by
  intro n
  induction n with
  | zero =>
    intro e s x
    simp [simLoop]
  | succ n ih =>
    intro e s x
    simp only [simLoop]
    rw [ih]
    by_cases himp : improves s.best (vlF e) = true
    · have hbeats : beats s.best (vlF e) := (improves_iff_beats _ _).mp himp
      constructor
      · rintro (hmem | ⟨k, hk, hx, hb, hfirst⟩)
        · rw [simEpoch_events, if_pos himp] at hmem
          rcases List.mem_append.mp hmem with hmem | hmem
          · rcases List.mem_append.mp hmem with hmem | hmem
            · exact Or.inl hmem
            · exfalso
              revert hmem
              simp
          · rcases List.mem_append.mp hmem with hmem | hmem
            · exfalso
              revert hmem
              by_cases hp : s.present <;> simp [hp]
            · have hxe : x = e := by simpa using hmem
              subst hxe
              exact Or.inr ⟨0, by omega, by omega, by simpa using hbeats,
                fun l hl => by omega⟩
        · rw [simEpoch_best, if_pos himp] at hb
          have hblt : vlF (e + 1 + k) < vlF e := hb (vlF e, e) rfl
          have hidx : e + (k + 1) = e + 1 + k := by omega
          refine Or.inr ⟨k + 1, by omega, by omega, ?_, ?_⟩
          · intro pr hpr
            rw [hidx]
            exact lt_trans hblt (hbeats pr hpr)
          · intro l hl
            cases l with
            | zero =>
              rw [hidx]
              simpa using hblt
            | succ l' =>
              have := hfirst l' (by omega)
              rw [hidx, show e + (l' + 1) = e + 1 + l' by omega]
              exact this
      · rintro (hmem | ⟨k, hk, hx, hb, hfirst⟩)
        · refine Or.inl ?_
          rw [simEpoch_events]
          exact List.mem_append.mpr (Or.inl (List.mem_append.mpr (Or.inl hmem)))
        · cases k with
          | zero =>
            refine Or.inl ?_
            rw [simEpoch_events, if_pos himp]
            refine List.mem_append.mpr (Or.inr (List.mem_append.mpr (Or.inr ?_)))
            simp only [List.mem_singleton]
            rw [hx]
            simp
          | succ k' =>
            refine Or.inr ⟨k', by omega, by omega, ?_, ?_⟩
            · rw [simEpoch_best, if_pos himp]
              intro pr hpr
              obtain rfl : (vlF e, e) = pr := by injection hpr
              have h0 := hfirst 0 (by omega)
              rw [show e + 0 = e by omega] at h0
              rw [show e + 1 + k' = e + (k' + 1) by omega]
              exact h0
            · intro l hl
              have := hfirst (l + 1) (by omega)
              rw [show e + (k' + 1) = e + 1 + k' by omega,
                show e + (l + 1) = e + 1 + l by omega] at this
              exact this
    · have hnb : ¬ beats s.best (vlF e) :=
        fun hb => himp ((improves_iff_beats _ _).mpr hb)
      obtain ⟨⟨b0, j0⟩, hb0⟩ : ∃ pr, s.best = some pr := by
        cases hsb : s.best with
        | none =>
          exfalso
          exact himp (by rw [hsb]; rfl)
        | some pr => exact ⟨pr, rfl⟩
      have hble : b0 ≤ vlF e := by
        by_contra hlt
        have hvb : vlF e < b0 := lt_of_not_le hlt
        have := (improves_some_iff b0 j0 (vlF e)).mpr hvb
        rw [← hb0] at this
        exact himp this
      constructor
      · rintro (hmem | ⟨k, hk, hx, hb, hfirst⟩)
        · rw [simEpoch_events, if_neg himp, List.append_nil] at hmem
          rcases List.mem_append.mp hmem with hmem | hmem
          · exact Or.inl hmem
          · exfalso
            revert hmem
            simp
        · rw [simEpoch_best, if_neg himp] at hb
          refine Or.inr ⟨k + 1, by omega, by omega, ?_, ?_⟩
          · intro pr hpr
            have := hb pr hpr
            rw [show e + (k + 1) = e + 1 + k by omega]
            exact this
          · intro l hl
            cases l with
            | zero =>
              have := hb (b0, j0) hb0
              rw [show e + (k + 1) = e + 1 + k by omega, show e + 0 = e by omega]
              exact lt_of_lt_of_le this hble
            | succ l' =>
              have := hfirst l' (by omega)
              rw [show e + (k + 1) = e + 1 + k by omega,
                show e + (l' + 1) = e + 1 + l' by omega]
              exact this
      · rintro (hmem | ⟨k, hk, hx, hb, hfirst⟩)
        · refine Or.inl ?_
          rw [simEpoch_events, if_neg himp, List.append_nil]
          exact List.mem_append.mpr (Or.inl hmem)
        · cases k with
          | zero =>
            exfalso
            apply hnb
            have := hb
            rw [show e + 0 = e by omega] at this
            exact this
          | succ k' =>
            refine Or.inr ⟨k', by omega, by omega, ?_, ?_⟩
            · rw [simEpoch_best, if_neg himp]
              intro pr hpr
              have := hb pr hpr
              rw [show e + (k' + 1) = e + 1 + k' by omega] at this
              exact this
            · intro l hl
              have := hfirst (l + 1) (by omega)
              rw [show e + (k' + 1) = e + 1 + k' by omega,
                show e + (l + 1) = e + 1 + l by omega] at this
              exact this

/-! ## Event classes and the checkpoint sub-trace -/

/-- Checkpoint-file events (delete and save of the `best` artifact). -/
def isCkptEv : Ev → Bool
  | Ev.deleteBest => true
  | Ev.saveBest _ => true
  | _ => false

/-- DataLoader scope events. -/
def isLoaderEv : Ev → Bool
  | Ev.acquire _ => true
  | Ev.release => true
  | _ => false

/-- Optimizer-construction events. -/
def isBuildOptEv : Ev → Bool
  | Ev.buildOpt _ _ _ => true
  | _ => false

/-- The checkpoint-event trace of a run saving at the listed epochs in order,
starting with an artifact on disk iff `present`: each save is immediately
preceded by a delete exactly when an artifact exists at that moment. -/
def ckptTrace (present : Bool) : List Nat → List Ev
  | [] => []
  | e :: rest =>
      (if present then [Ev.deleteBest] else []) ++ Ev.saveBest e :: ckptTrace true rest

theorem ckptTrace_append_single (saves : List Nat) :
    ∀ (present : Bool) (e : Nat),
      ckptTrace present (saves ++ [e]) =
        ckptTrace present saves ++
          (if present || !saves.isEmpty then [Ev.deleteBest] else []) ++
          [Ev.saveBest e] := by
  induction saves with
  | nil =>
    intro present e
    cases present <;> simp [ckptTrace]
  | cons a saves ih =>
    intro present e
    simp only [List.cons_append, ckptTrace, List.append_eq]
    rw [ih true e]
    cases present <;> simp [List.append_assoc]

/-- A loader subtrace that is a sequence of complete acquire/release scopes. -/
def loaderScoped (l : List Ev) : Prop :=
  ∃ seeds : List Nat, l = (seeds.map (fun sd => [Ev.acquire sd, Ev.release])).flatten

theorem loaderScoped_nil : loaderScoped [] := ⟨[], rfl⟩

theorem loaderScoped_append (l1 l2 : List Ev)
    (h1 : loaderScoped l1) (h2 : loaderScoped l2) : loaderScoped (l1 ++ l2) := by
  obtain ⟨s1, rfl⟩ := h1
  obtain ⟨s2, rfl⟩ := h2
  exact ⟨s1 ++ s2, by simp⟩

/-! ## Small-step equations for the epoch loop -/

theorem fitLoop_succ_ok (orc : EpochOracle) (e n : Nat) (s s' : FitState) (u : Unit)
    (h : fitEpoch orc e s = (s', Except.ok u)) :
    fitLoop orc e (n + 1) s = fitLoop orc (e + 1) n s' := by
  simp [fitLoop, h]

theorem fitLoop_succ_error (orc : EpochOracle) (e n : Nat) (s s' : FitState) (u : Unit)
    (h : fitEpoch orc e s = (s', Except.error u)) :
    fitLoop orc e (n + 1) s = (s', Except.error u) := by
  simp [fitLoop, h]

theorem fitLoop_add (orc : EpochOracle) :
    ∀ (m n e : Nat) (s : FitState),
      fitLoop orc e (m + n) s =
        (match fitLoop orc e m s with
         | (s', Except.ok _) => fitLoop orc (e + m) n s'
         | (s', Except.error u) => (s', Except.error u)) := by
  intro m
  induction m with
  | zero =>
    intro n e s
    rw [Nat.zero_add]
    rfl
  | succ m ih =>
    intro n e s
    rw [show m + 1 + n = (m + n) + 1 by omega]
    rcases hstep : fitEpoch orc e s with ⟨s', res⟩
    cases res with
    | ok u =>
      rw [fitLoop_succ_ok orc e (m + n) s s' u hstep,
        fitLoop_succ_ok orc e m s s' u hstep, ih]
      rw [show e + (m + 1) = e + 1 + m by omega]
    | error u =>
      rw [fitLoop_succ_error orc e (m + n) s s' u hstep,
        fitLoop_succ_error orc e m s s' u hstep]

theorem fitEpoch_train_error (orc : EpochOracle) (e : Nat) (s : FitState) (u : Unit)
    (h : orc.trainResult e = .error u) :
    fitEpoch orc e s =
      ({ s with events := s.events ++ [Ev.acquire (orc.seed e), Ev.release] },
        Except.error u) := by
  simp [fitEpoch, withDataLoader, h]

theorem fitEpoch_evalTrain_error (orc : EpochOracle) (e : Nat) (s : FitState) (u : Unit)
    (h1 : orc.trainResult e = .ok ()) (h2 : orc.trainLoss e = .error u) :
    fitEpoch orc e s =
      ({ s with events := s.events ++ [Ev.acquire (orc.seed e), Ev.release,
        Ev.acquire 0, Ev.release] }, Except.error u) := by
  simp [fitEpoch, withDataLoader, h1, h2]

theorem fitEpoch_evalVal_error (orc : EpochOracle) (e : Nat) (s : FitState) (u : Unit)
    (h1 : orc.trainResult e = .ok ()) (h2 : ∃ tr, orc.trainLoss e = .ok tr)
    (h3 : orc.valLoss e = .error u) :
    fitEpoch orc e s =
      ({ s with events := s.events ++ [Ev.acquire (orc.seed e), Ev.release,
        Ev.acquire 0, Ev.release, Ev.acquire 0, Ev.release] }, Except.error u) := by
  obtain ⟨tr, h2⟩ := h2
  simp [fitEpoch, withDataLoader, h1, h2, h3]

/-! ## The checkpoint sub-trace of a successful run is delete-then-save -/

theorem simLoop_ckpt (seedF : Nat → Nat) (trF vlF : Nat → ℚ) (p0 : Bool) :
    ∀ (n e : Nat) (s : FitState) (saves : List Nat),
      s.events.filter isCkptEv = ckptTrace p0 saves →
      s.present = (p0 || !saves.isEmpty) →
      ∃ saves',
        (simLoop seedF trF vlF e n s).events.filter isCkptEv = ckptTrace p0 saves' ∧
        (simLoop seedF trF vlF e n s).present = (p0 || !saves'.isEmpty) := by
  intro n
  induction n with
  | zero => intro e s saves h1 h2; exact ⟨saves, h1, h2⟩
  | succ n ih =>
    intro e s saves h1 h2
    simp only [simLoop]
    by_cases himp : improves s.best (vlF e) = true
    · refine ih (e + 1) _ (saves ++ [e]) ?_ ?_
      · rw [simEpoch_events, if_pos himp, List.filter_append, List.filter_append,
          h1, ckptTrace_append_single saves p0 e]
        rw [show List.filter isCkptEv [Ev.acquire (seedF e), Ev.release,
          Ev.acquire 0, Ev.release, Ev.acquire 0, Ev.release, Ev.flush] = [] from rfl]
        rw [List.append_nil, List.filter_append, h2]
        cases hc : (p0 || !saves.isEmpty) <;> simp [List.append_assoc, isCkptEv]
      · rw [simEpoch_present, if_pos himp]
        simp
    · refine ih (e + 1) _ saves ?_ ?_
      · rw [simEpoch_events, if_neg himp, List.append_nil, List.filter_append]
        rw [show List.filter isCkptEv [Ev.acquire (seedF e), Ev.release,
          Ev.acquire 0, Ev.release, Ev.acquire 0, Ev.release, Ev.flush] = [] from rfl]
        rw [List.append_nil]
        exact h1
      · rw [simEpoch_present, if_neg himp]
        exact h2

/-! ## The events appended by an epoch, on every path -/

theorem fitEpoch_chunk (orc : EpochOracle) (e : Nat) (s : FitState) :
    ∃ l, (fitEpoch orc e s).1.events = s.events ++ l ∧
      loaderScoped (l.filter isLoaderEv) ∧
      l.countP isBuildOptEv = 0 ∧
      Ev.closeLoss ∉ l := by
  cases h1 : orc.trainResult e with
  | error u =>
    refine ⟨[Ev.acquire (orc.seed e), Ev.release], ?_, ⟨[orc.seed e], rfl⟩, rfl, by simp⟩
    rw [fitEpoch_train_error orc e s u h1]
  | ok u0 =>
    obtain rfl : u0 = () := rfl
    cases h2 : orc.trainLoss e with
    | error u =>
      refine ⟨[Ev.acquire (orc.seed e), Ev.release, Ev.acquire 0, Ev.release], ?_,
        ⟨[orc.seed e, 0], rfl⟩, rfl, by simp⟩
      rw [fitEpoch_evalTrain_error orc e s u h1 h2]
    | ok tr =>
      cases h3 : orc.valLoss e with
      | error u =>
        refine ⟨[Ev.acquire (orc.seed e), Ev.release, Ev.acquire 0, Ev.release,
          Ev.acquire 0, Ev.release], ?_, ⟨[orc.seed e, 0, 0], rfl⟩, rfl, by simp⟩
        rw [fitEpoch_evalVal_error orc e s u h1 ⟨tr, h2⟩ h3]
      | ok vl =>
        rw [fitEpoch_ok orc e s tr vl h1 h2 h3]
        refine ⟨[Ev.acquire (orc.seed e), Ev.release, Ev.acquire 0, Ev.release,
          Ev.acquire 0, Ev.release, Ev.flush] ++
          (if improves s.best vl then
            (if s.present then [Ev.deleteBest] else []) ++ [Ev.saveBest e]
          else []), ?_, ?_, ?_, ?_⟩
        · rw [simEpoch_events, List.append_assoc]
        · rw [List.filter_append]
          refine loaderScoped_append _ _ ⟨[orc.seed e, 0, 0], rfl⟩ ?_
          have hz : (if improves s.best vl = true then
              (if s.present = true then [Ev.deleteBest] else []) ++ [Ev.saveBest e]
            else []).filter isLoaderEv = [] := by
            split
            · split <;> rfl
            · rfl
          rw [hz]
          exact loaderScoped_nil
        · rw [List.countP_append]
          have hz : (if improves s.best vl = true then
              (if s.present = true then [Ev.deleteBest] else []) ++ [Ev.saveBest e]
            else []).countP isBuildOptEv = 0 := by
            split
            · split <;> rfl
            · rfl
          rw [hz]
          rfl
        · intro hm
          rcases List.mem_append.mp hm with hm | hm
          · revert hm
            simp
          · revert hm
            split
            · split <;> simp
            · simp

theorem fitLoop_chunk (orc : EpochOracle) :
    ∀ (n e : Nat) (s : FitState),
      ∃ l, (fitLoop orc e n s).1.events = s.events ++ l ∧
        loaderScoped (l.filter isLoaderEv) ∧
        l.countP isBuildOptEv = 0 ∧
        Ev.closeLoss ∉ l := by
  intro n
  induction n with
  | zero =>
    intro e s
    exact ⟨[], by simp [fitLoop], loaderScoped_nil, rfl, by simp⟩
  | succ n ih =>
    intro e s
    obtain ⟨l1, he1, hs1, hc1, hm1⟩ := fitEpoch_chunk orc e s
    rcases hstep : fitEpoch orc e s with ⟨s', res⟩
    rw [hstep] at he1
    simp only at he1
    cases res with
    | ok u =>
      obtain ⟨l2, he2, hs2, hc2, hm2⟩ := ih (e + 1) s'
      refine ⟨l1 ++ l2, ?_, ?_, ?_, ?_⟩
      · rw [fitLoop_succ_ok orc e n s s' u hstep, he2, he1, List.append_assoc]
      · rw [List.filter_append]
        exact loaderScoped_append _ _ hs1 hs2
      · rw [List.countP_append, hc1, hc2]
      · intro hm
        rcases List.mem_append.mp hm with hm | hm
        · exact hm1 hm
        · exact hm2 hm
    | error u =>
      refine ⟨l1, ?_, hs1, hc1, hm1⟩
      rw [fitLoop_succ_error orc e n s s' u hstep]
      exact he1

theorem fitEpoch_snaps_mono (orc : EpochOracle) (e : Nat) (s : FitState) :
    ∃ l, (fitEpoch orc e s).1.snaps = s.snaps ++ l := by
  cases h1 : orc.trainResult e with
  | error u =>
    refine ⟨[], ?_⟩
    rw [fitEpoch_train_error orc e s u h1]
    simp
  | ok u0 =>
    obtain rfl : u0 = () := rfl
    cases h2 : orc.trainLoss e with
    | error u =>
      refine ⟨[], ?_⟩
      rw [fitEpoch_evalTrain_error orc e s u h1 h2]
      simp
    | ok tr =>
      cases h3 : orc.valLoss e with
      | error u =>
        refine ⟨[], ?_⟩
        rw [fitEpoch_evalVal_error orc e s u h1 ⟨tr, h2⟩ h3]
        simp
      | ok vl =>
        rw [fitEpoch_ok orc e s tr vl h1 h2 h3]
        exact ⟨[s.content ++ [(e, tr, vl)]], by rw [simEpoch_snaps]⟩

theorem fitLoop_snaps_mono (orc : EpochOracle) :
    ∀ (n e : Nat) (s : FitState),
      ∃ l, (fitLoop orc e n s).1.snaps = s.snaps ++ l := by
  intro n
  induction n with
  | zero => intro e s; exact ⟨[], by simp [fitLoop]⟩
  | succ n ih =>
    intro e s
    obtain ⟨l1, he1⟩ := fitEpoch_snaps_mono orc e s
    rcases hstep : fitEpoch orc e s with ⟨s', res⟩
    rw [hstep] at he1
    simp only at he1
    cases res with
    | ok u =>
      obtain ⟨l2, he2⟩ := ih (e + 1) s'
      refine ⟨l1 ++ l2, ?_⟩
      rw [fitLoop_succ_ok orc e n s s' u hstep, he2, he1, List.append_assoc]
    | error u =>
      refine ⟨l1, ?_⟩
      rw [fitLoop_succ_error orc e n s s' u hstep]
      exact he1

theorem fit_eq (orc : EpochOracle) (cfg : Config) (mdl : ModelParams) (ds : Dataset)
    (present : Bool) :
    fit orc cfg mdl ds present =
      (match fitLoop orc 0 cfg.epochs_per_cycle
          (fitInit (build_adam_optimizer mdl cfg ds) present) with
       | (s, Except.ok _) => ({ s with events := s.events ++ [Ev.closeLoss] }, Except.ok ())
       | (s, Except.error u) => (s, Except.error u)) := rfl

/-! ## Claim C3 -/

/-- C3: in a full run where every epoch completes, the `best` artifact is
(re)written at epoch e iff epoch e's val loss is strictly below every earlier
epoch's val loss (the first epoch always qualifies); in the checkpoint
sub-trace every save is immediately preceded by a delete exactly when an
artifact exists at that moment (`ckptTrace`); and after the run the artifact
holds the epoch of strictly minimal val loss, the earliest such epoch on
ties. -/
theorem claim_C3 (orc : EpochOracle) (cfg : Config) (mdl : ModelParams)
    (ds : Dataset) (present : Bool) (trF vlF : Nat → ℚ)
    (hK : 1 ≤ cfg.epochs_per_cycle)
    (hok : ∀ k, k < cfg.epochs_per_cycle →
      orc.trainResult k = .ok () ∧ orc.trainLoss k = .ok (trF k) ∧
        orc.valLoss k = .ok (vlF k)) :
    (fit orc cfg mdl ds present).2 = .ok () ∧
    (∀ x : Nat, Ev.saveBest x ∈ (fit orc cfg mdl ds present).1.events ↔
      (x < cfg.epochs_per_cycle ∧ ∀ l, l < x → vlF x < vlF l)) ∧
    (∃ saves : List Nat,
      ((fit orc cfg mdl ds present).1.events).filter isCkptEv =
        ckptTrace present saves) ∧
    (∃ m i, (fit orc cfg mdl ds present).1.best = some (m, i) ∧
      (fit orc cfg mdl ds present).1.artifact = some i ∧
      i < cfg.epochs_per_cycle ∧ vlF i = m ∧
      (∀ k, k < cfg.epochs_per_cycle → m ≤ vlF k) ∧
      (∀ k, k < i → m < vlF k)) := by
  have hok0 : ∀ k, k < cfg.epochs_per_cycle →
      orc.trainResult (0 + k) = .ok () ∧ orc.trainLoss (0 + k) = .ok (trF (0 + k)) ∧
        orc.valLoss (0 + k) = .ok (vlF (0 + k)) := by
    intro k hk
    rw [Nat.zero_add]
    exact hok k hk
  have hloop := fitLoop_ok orc trF vlF cfg.epochs_per_cycle 0
    (fitInit (build_adam_optimizer mdl cfg ds) present) hok0
  have hfit : fit orc cfg mdl ds present =
      ({ simLoop orc.seed trF vlF 0 cfg.epochs_per_cycle
            (fitInit (build_adam_optimizer mdl cfg ds) present) with
          events := (simLoop orc.seed trF vlF 0 cfg.epochs_per_cycle
            (fitInit (build_adam_optimizer mdl cfg ds) present)).events ++
              [Ev.closeLoss] },
        Except.ok ()) := by
    rw [fit_eq, hloop]
  refine ⟨by rw [hfit], ?_, ?_, ?_⟩
  · intro x
    rw [hfit]
    simp only [List.mem_append]
    have hclose : Ev.saveBest x ∈ [Ev.closeLoss] ↔ False := by simp
    rw [simLoop_saveMem, hclose]
    have hinit : Ev.saveBest x ∈
        (fitInit (build_adam_optimizer mdl cfg ds) present).events ↔ False := by
      simp [fitInit]
    rw [hinit]
    have hbeats : ∀ v : ℚ,
        beats (fitInit (build_adam_optimizer mdl cfg ds) present).best v := by
      intro v pr hpr
      simp [fitInit] at hpr
    constructor
    · rintro ((h | ⟨k, hk, hx, _, hfirst⟩) | h)
      · exact absurd h id
      · subst hx
        rw [Nat.zero_add]
        refine ⟨by omega, ?_⟩
        intro l hl
        have := hfirst l (by omega)
        rw [Nat.zero_add, Nat.zero_add] at this
        exact this
      · exact absurd h id
    · rintro ⟨hx, hfirst⟩
      refine Or.inl (Or.inr ⟨x, hx, by omega, hbeats _, ?_⟩)
      intro l hl
      rw [Nat.zero_add, Nat.zero_add]
      exact hfirst l hl
  · have h1 : (fitInit (build_adam_optimizer mdl cfg ds) present).events.filter
        isCkptEv = ckptTrace present [] := rfl
    have h2 : (fitInit (build_adam_optimizer mdl cfg ds) present).present =
        (present || !(List.isEmpty ([] : List Nat))) := by
      simp [fitInit]
    obtain ⟨saves', hfil, _⟩ := simLoop_ckpt orc.seed trF vlF present
      cfg.epochs_per_cycle 0 _ [] h1 h2
    refine ⟨saves', ?_⟩
    rw [hfit]
    simp only [List.filter_append]
    rw [hfil, show List.filter isCkptEv [Ev.closeLoss] = [] from rfl, List.append_nil]
  · have hbest : (simLoop orc.seed trF vlF 0 cfg.epochs_per_cycle
        (fitInit (build_adam_optimizer mdl cfg ds) present)).best =
        bestFold vlF 0 cfg.epochs_per_cycle none := by
      rw [simLoop_best]
      rfl
    obtain ⟨m, i, heq, h0i, hiK, hvim, hwin, hfirst⟩ :=
      bestFold_none_spec vlF cfg.epochs_per_cycle 0 hK
    have hbs : (simLoop orc.seed trF vlF 0 cfg.epochs_per_cycle
        (fitInit (build_adam_optimizer mdl cfg ds) present)).best = some (m, i) := by
      rw [hbest, heq]
    have hart := simLoop_artifact_link orc.seed trF vlF cfg.epochs_per_cycle 0
      (fitInit (build_adam_optimizer mdl cfg ds) present)
      (fun pr hpr => by simp [fitInit] at hpr) (m, i) hbs
    refine ⟨m, i, ?_, ?_, by omega, hvim, ?_, ?_⟩
    · rw [hfit]
      exact hbs
    · rw [hfit]
      exact hart
    · intro k hk
      exact hwin k (by omega) (by omega)
    · intro k hk
      exact hfirst k (by omega) hk

def cfg3 : Config := ⟨1, 0, 0, 2, 1, 1, 0, 0, 0, 0, 0, 0, 0⟩

def mdl3 : ModelParams := ⟨[(0, true), (1, false)]⟩

def ds3 : Dataset := ⟨fun _ _ => 4⟩

def vl3 : Nat → ℚ := fun e => if e = 0 then 1 else 0

def orc3 : EpochOracle :=
  ⟨fun _ => .ok (), fun _ => .ok 0, fun e => .ok (vl3 e), fun _ => 5⟩

theorem claim_C3_witness :
    (fit orc3 cfg3 mdl3 ds3 false).2 = .ok () ∧
    (∀ x : Nat, Ev.saveBest x ∈ (fit orc3 cfg3 mdl3 ds3 false).1.events ↔
      (x < cfg3.epochs_per_cycle ∧ ∀ l, l < x → vl3 x < vl3 l)) ∧
    (∃ saves : List Nat,
      ((fit orc3 cfg3 mdl3 ds3 false).1.events).filter isCkptEv =
        ckptTrace false saves) ∧
    (∃ m i, (fit orc3 cfg3 mdl3 ds3 false).1.best = some (m, i) ∧
      (fit orc3 cfg3 mdl3 ds3 false).1.artifact = some i ∧
      i < cfg3.epochs_per_cycle ∧ vl3 i = m ∧
      (∀ k, k < cfg3.epochs_per_cycle → m ≤ vl3 k) ∧
      (∀ k, k < i → m < vl3 k)) :=
  claim_C3 orc3 cfg3 mdl3 ds3 false (fun _ => 0) vl3 (by decide)
    (fun k _ => ⟨rfl, rfl, rfl⟩)

/-! ## Claim C4 -/

/-- C4: when the first K' epochs complete, the loss log receives one flushed
entry per epoch in epoch order: immediately after epoch e completes, the
flushed file holds exactly the entries of epochs 0..e — even if a later epoch
subsequently fails; a full run of K' = epochs_per_cycle epochs ends with
exactly K' entries, and a run aborted by an exception in epoch K' still leaves
the K' complete entries on disk. -/
theorem claim_C4 (orc : EpochOracle) (cfg : Config) (mdl : ModelParams)
    (ds : Dataset) (present : Bool) (trF vlF : Nat → ℚ) (kk : Nat)
    (hkk : kk ≤ cfg.epochs_per_cycle)
    (hok : ∀ k, k < kk →
      orc.trainResult k = .ok () ∧ orc.trainLoss k = .ok (trF k) ∧
        orc.valLoss k = .ok (vlF k)) :
    (∀ e, e < kk → (fit orc cfg mdl ds present).1.snaps[e]? =
      some ((List.range (e + 1)).map (fun k => (k, trF k, vlF k)))) ∧
    (kk = cfg.epochs_per_cycle →
      (fit orc cfg mdl ds present).1.content =
        (List.range kk).map (fun k => (k, trF k, vlF k)) ∧
      (fit orc cfg mdl ds present).2 = .ok ()) ∧
    ((kk < cfg.epochs_per_cycle ∧ orc.trainResult kk = .error ()) →
      (fit orc cfg mdl ds present).1.content =
        (List.range kk).map (fun k => (k, trF k, vlF k)) ∧
      (fit orc cfg mdl ds present).2 = .error ()) := by
  have hok0 : ∀ k, k < kk →
      orc.trainResult (0 + k) = .ok () ∧ orc.trainLoss (0 + k) = .ok (trF (0 + k)) ∧
        orc.valLoss (0 + k) = .ok (vlF (0 + k)) := by
    intro k hk
    rw [Nat.zero_add]
    exact hok k hk
  have hstage1 := fitLoop_ok orc trF vlF kk 0
    (fitInit (build_adam_optimizer mdl cfg ds) present) hok0
  have hsplit : fitLoop orc 0 cfg.epochs_per_cycle
      (fitInit (build_adam_optimizer mdl cfg ds) present) =
      fitLoop orc kk (cfg.epochs_per_cycle - kk)
        (simLoop orc.seed trF vlF 0 kk
          (fitInit (build_adam_optimizer mdl cfg ds) present)) := by
    conv_lhs => rw [show cfg.epochs_per_cycle = kk + (cfg.epochs_per_cycle - kk) by omega]
    rw [fitLoop_add orc kk (cfg.epochs_per_cycle - kk) 0 _, hstage1]
    show fitLoop orc (0 + kk) (cfg.epochs_per_cycle - kk) _ = _
    rw [Nat.zero_add]
  have hcontMid : (simLoop orc.seed trF vlF 0 kk
      (fitInit (build_adam_optimizer mdl cfg ds) present)).content =
      (List.range kk).map (fun k => (k, trF k, vlF k)) := by
    rw [simLoop_content, List.range_eq_range']
    rfl
  have hsnapsMid : (simLoop orc.seed trF vlF 0 kk
      (fitInit (build_adam_optimizer mdl cfg ds) present)).snaps =
      (List.range kk).map
        (fun j => (List.range (j + 1)).map (fun k => (k, trF k, vlF k))) := by
    rw [simLoop_snaps]
    show (List.range kk).map _ = _
    refine List.map_congr_left (fun j _ => ?_)
    show [] ++ _ = _
    rw [List.nil_append, List.range_eq_range']
  refine ⟨?_, ?_, ?_⟩
  · intro e he
    rcases hres : fitLoop orc kk (cfg.epochs_per_cycle - kk)
        (simLoop orc.seed trF vlF 0 kk
          (fitInit (build_adam_optimizer mdl cfg ds) present)) with ⟨s2, res2⟩
    obtain ⟨l2, hsn⟩ := fitLoop_snaps_mono orc (cfg.epochs_per_cycle - kk) kk
      (simLoop orc.seed trF vlF 0 kk (fitInit (build_adam_optimizer mdl cfg ds) present))
    rw [hres] at hsn
    simp only at hsn
    have hfitsnaps : (fit orc cfg mdl ds present).1.snaps = s2.snaps := by
      rw [fit_eq, hsplit, hres]
      cases res2 <;> rfl
    rw [hfitsnaps, hsn, hsnapsMid]
    rw [List.getElem?_append_left (by simp [he])]
    rw [List.getElem?_map, List.getElem?_range he]
    rfl
  · intro hfull
    have hzero : cfg.epochs_per_cycle - kk = 0 := by omega
    rw [fit_eq, hsplit, hzero]
    exact ⟨hcontMid, rfl⟩
  · rintro ⟨hlt, herr⟩
    obtain ⟨r, hr⟩ : ∃ r, cfg.epochs_per_cycle - kk = r + 1 :=
      ⟨cfg.epochs_per_cycle - kk - 1, by omega⟩
    rw [fit_eq, hsplit, hr]
    rw [fitLoop_succ_error orc kk r _ _ ()
      (fitEpoch_train_error orc kk _ () herr)]
    exact ⟨hcontMid, rfl⟩

def cfg4 : Config := ⟨1, 0, 0, 2, 1, 1, 0, 0, 0, 0, 0, 0, 0⟩

def orc4 : EpochOracle :=
  ⟨fun e => if e = 0 then .ok () else .error (), fun _ => .ok 0, fun _ => .ok 0,
    fun _ => 7⟩

theorem claim_C4_witness :
    (∀ e, e < 1 → (fit orc4 cfg4 mdl3 ds3 false).1.snaps[e]? =
      some ((List.range (e + 1)).map (fun k => (k, (0 : ℚ), (0 : ℚ))))) ∧
    (1 = cfg4.epochs_per_cycle →
      (fit orc4 cfg4 mdl3 ds3 false).1.content =
        (List.range 1).map (fun k => (k, (0 : ℚ), (0 : ℚ))) ∧
      (fit orc4 cfg4 mdl3 ds3 false).2 = .ok ()) ∧
    ((1 < cfg4.epochs_per_cycle ∧ orc4.trainResult 1 = .error ()) →
      (fit orc4 cfg4 mdl3 ds3 false).1.content =
        (List.range 1).map (fun k => (k, (0 : ℚ), (0 : ℚ))) ∧
      (fit orc4 cfg4 mdl3 ds3 false).2 = .error ()) :=
  claim_C4 orc4 cfg4 mdl3 ds3 false (fun _ => 0) (fun _ => 0) 1 (by decide)
    (fun k hk => by
      obtain rfl : k = 0 := by omega
      exact ⟨rfl, rfl, rfl⟩)

/-! ## Claim C5 -/

/-- C5 (code bug): the source closes the loss-log handle only at line 139,
after the epoch loop, with no try/finally or with-block; when an exception
raised in any epoch propagates out of `fit`, the close is never reached. This
theorem evaluates the code on the error paths: whenever `fit` exits with an
exception, no close event is in its trace, contradicting the claim that the
handle is closed on every exit path. -/
theorem claim_C5 (orc : EpochOracle) (cfg : Config) (mdl : ModelParams)
    (ds : Dataset) (present : Bool) (u : Unit)
    (herr : (fit orc cfg mdl ds present).2 = .error u) :
    Ev.closeLoss ∉ (fit orc cfg mdl ds present).1.events := by
  obtain ⟨l, he, _, _, hm⟩ := fitLoop_chunk orc cfg.epochs_per_cycle 0
    (fitInit (build_adam_optimizer mdl cfg ds) present)
  rcases hres : fitLoop orc 0 cfg.epochs_per_cycle
      (fitInit (build_adam_optimizer mdl cfg ds) present) with ⟨s', res⟩
  rw [hres] at he
  simp only at he
  rw [fit_eq, hres] at herr ⊢
  cases res with
  | ok u' => simp at herr
  | error u' =>
    simp only
    rw [he]
    intro hmem
    rcases List.mem_append.mp hmem with h | h
    · revert h
      simp [fitInit]
    · exact hm h

def orc5 : EpochOracle :=
  ⟨fun _ => .error (), fun _ => .ok 0, fun _ => .ok 0, fun _ => 0⟩

def mdlW : ModelParams := ⟨[]⟩

def dsW : Dataset := ⟨fun _ _ => 0⟩

theorem claim_C5_witness :
    (fit orc5 cfgW2 mdlW dsW false).2 = .error () ∧
    Ev.closeLoss ∉ (fit orc5 cfgW2 mdlW dsW false).1.events :=
  ⟨rfl, claim_C5 orc5 cfgW2 mdlW dsW false () rfl⟩

/-! ## Claim C6 -/

/-- C6 counterexample: the claim says the optimizer is built as step 1 of the
per-epoch algorithm, i.e. once per epoch; in the code (line 93) it is built
once, before the loop. On a completed 2-epoch run the trace holds exactly one
optimizer-construction event, not two. -/
theorem claim_C6_counterexample :
    (fit orc3 cfg3 mdl3 ds3 false).1.events.countP isBuildOptEv = 1 ∧
    cfg3.epochs_per_cycle = 2 ∧ (1 : Nat) ≠ 2 := by
  refine ⟨by decide, rfl, by omega⟩

/-- C6 (amended): `fit` builds the optimizer exactly once, before the epoch
loop (the first event of every run, whatever the epoch outcomes), bound to
exactly the parameters with `requires_grad` enabled, with warmup fraction
`warmup_epochs / epochs_per_cycle` and total steps
`num_batches(batch_size, False) * epochs_per_cycle`. -/
theorem claim_C6 (orc : EpochOracle) (cfg : Config) (mdl : ModelParams)
    (ds : Dataset) (present : Bool) :
    (fit orc cfg mdl ds present).1.events.countP isBuildOptEv = 1 ∧
    (fit orc cfg mdl ds present).1.events[0]? =
      some (Ev.buildOpt
        ((mdl.namedParameters.filter (fun pr => pr.2)).map (fun pr => pr.1))
        (cfg.warmup_epochs / (cfg.epochs_per_cycle : ℚ))
        (ds.numBatches cfg.batch_size false * cfg.epochs_per_cycle)) ∧
    (∀ p : Nat, p ∈ (build_adam_optimizer mdl cfg ds).params ↔
      (p, true) ∈ mdl.namedParameters) := by
  obtain ⟨l, he, _, hc, _⟩ := fitLoop_chunk orc cfg.epochs_per_cycle 0
    (fitInit (build_adam_optimizer mdl cfg ds) present)
  rcases hres : fitLoop orc 0 cfg.epochs_per_cycle
      (fitInit (build_adam_optimizer mdl cfg ds) present) with ⟨s', res⟩
  rw [hres] at he
  simp only at he
  have hparams : ∀ p : Nat, p ∈ (build_adam_optimizer mdl cfg ds).params ↔
      (p, true) ∈ mdl.namedParameters := by
    intro p
    simp only [build_adam_optimizer, List.mem_map, List.mem_filter]
    constructor
    · rintro ⟨⟨p1, p2⟩, ⟨hmem, hgrad⟩, hp⟩
      simp only at hgrad hp
      subst hp
      rw [show p2 = true from hgrad] at hmem
      exact hmem
    · intro h
      exact ⟨(p, true), ⟨h, rfl⟩, rfl⟩
  have hevfit : (fit orc cfg mdl ds present).1.events = s'.events ∨
      (fit orc cfg mdl ds present).1.events = s'.events ++ [Ev.closeLoss] := by
    rw [fit_eq, hres]
    cases res with
    | ok _ => exact Or.inr rfl
    | error _ => exact Or.inl rfl
  have hcount1 : s'.events.countP isBuildOptEv = 1 := by
    rw [he, List.countP_append, hc]
    rfl
  have hhead : s'.events[0]? =
      some (Ev.buildOpt
        ((mdl.namedParameters.filter (fun pr => pr.2)).map (fun pr => pr.1))
        (cfg.warmup_epochs / (cfg.epochs_per_cycle : ℚ))
        (ds.numBatches cfg.batch_size false * cfg.epochs_per_cycle)) := by
    rw [he]
    rfl
  rcases hevfit with hev | hev
  · exact ⟨by rw [hev, hcount1], by rw [hev, hhead], hparams⟩
  · refine ⟨?_, ?_, hparams⟩
    · rw [hev, List.countP_append, hcount1]
      rfl
    · rw [hev, List.getElem?_append_left (by rw [he]; simp [fitInit]), hhead]

/-! ## Claim C8 -/

/-- The batch-consuming section of `featurize_patients` (lines 196-213): a
`with DataLoader(...)` block over a freshly seeded loader (line 201); the body
either completes, returning the scattered matrix, or raises, and the loader is
released either way. -/
def featurizeRun (cfg : Config) (batches : List Batch)
    (patient_ids day_offsets : List Nat) (seed : Nat)
    (outcome : Except Unit Unit) : Except Unit (List Vec) × List Ev :=
  withDataLoader seed
    (match outcome with
     | .ok _ => .ok (featurize_patients cfg batches patient_ids day_offsets)
     | .error u => .error u)

/-- C8: every DataLoader is acquired and released as a scoped resource. The
`with` block releases on all exit paths by construction (`withDataLoader`);
the loader events of a whole `fit` run - over every oracle, including ones
that raise during training, evaluation or checkpointing, after any number of
batches - form a sequence of complete acquire/release scopes; and the
featurization section releases its loader whether or not its body raises. -/
theorem claim_C8 :
    (∀ (orc : EpochOracle) (cfg : Config) (mdl : ModelParams) (ds : Dataset)
      (present : Bool),
      loaderScoped (((fit orc cfg mdl ds present).1.events).filter isLoaderEv)) ∧
    (∀ (seed : Nat) (body : Except Unit Unit),
      (withDataLoader seed body).2 = [Ev.acquire seed, Ev.release]) ∧
    (∀ (cfg : Config) (batches : List Batch) (patient_ids day_offsets : List Nat)
      (seed : Nat) (outcome : Except Unit Unit),
      (featurizeRun cfg batches patient_ids day_offsets seed outcome).2 =
        [Ev.acquire seed, Ev.release]) := by
  refine ⟨?_, fun _ _ => rfl, fun _ _ _ _ _ _ => rfl⟩
  intro orc cfg mdl ds present
  obtain ⟨l, he, hs, _, _⟩ := fitLoop_chunk orc cfg.epochs_per_cycle 0
    (fitInit (build_adam_optimizer mdl cfg ds) present)
  rcases hres : fitLoop orc 0 cfg.epochs_per_cycle
      (fitInit (build_adam_optimizer mdl cfg ds) present) with ⟨s', res⟩
  rw [hres] at he
  simp only at he
  have hbase : loaderScoped (s'.events.filter isLoaderEv) := by
    rw [he, List.filter_append]
    refine loaderScoped_append _ _ ?_ hs
    exact ⟨[], rfl⟩
  rw [fit_eq, hres]
  cases res with
  | ok _ =>
    simp only
    rw [List.filter_append]
    refine loaderScoped_append _ _ hbase ?_
    exact ⟨[], rfl⟩
  | error _ =>
    exact hbase

/-! ## `evaluate` (lines 142-170) -/

/-- The arguments `evaluate` and `_train_epoch` pass to the `DataLoader`
constructor. -/
structure LoaderArgs where
  threshold : Nat
  is_val : Bool
  batch_size : Nat
  seed : Nat
  day_dropout : ℚ
  code_dropout : ℚ
deriving DecidableEq

/-- The loader arguments built inside `evaluate` (lines 151-158): evaluation
batch size and the literal seed 0. -/
def evalLoaderArgs (cfg : Config) (is_val : Bool) : LoaderArgs :=
  ⟨cfg.num_first, is_val, cfg.eval_batch_size, 0, cfg.day_dropout, cfg.code_dropout⟩

/-- The loader arguments built inside `_train_epoch` (lines 63-70): training
batch size and a freshly drawn random seed. -/
def trainLoaderArgs (cfg : Config) (seed : Nat) : LoaderArgs :=
  ⟨cfg.num_first, false, cfg.batch_size, seed, cfg.day_dropout, cfg.code_dropout⟩

/-- `evaluate` (lines 142-170): pick `num_batches` (the caller's cap, or the
dataset's count at `batch_size`), stream the per-batch losses the model
produces on the loader's batches (external model + loader, a function of the
loader arguments), consume `zip(batches, range(num_batches))`, and divide the
accumulated loss by `num_batches`. -/
def evaluate (stream : LoaderArgs → List ℚ) (cfg : Config) (ds : Dataset)
    (is_val : Bool) (num_batches : Option Nat) : ℚ :=
  let nb := match num_batches with
    | some k => k
    | none => ds.numBatches cfg.batch_size is_val
  let batches := stream (evalLoaderArgs cfg is_val)
  (((batches.zip (List.range nb)).map Prod.fst).sum) / (nb : ℚ)

/-- `evaluate` with the ambient random-number-generator state threaded
through the call: the function never reads or advances the state, because the
seed is the literal 0. -/
def evaluateWithRng (stream : LoaderArgs → List ℚ) (cfg : Config) (ds : Dataset)
    (is_val : Bool) (num_batches : Option Nat) (rng : Nat) : ℚ × Nat :=
  (evaluate stream cfg ds is_val num_batches, rng)

/-! ## Claim C7 -/

/-- C7: evaluation sampling uses the fixed seed 0 (in contrast to the
per-epoch random training seed, which the training loader does depend on), so
`evaluate` is deterministic: two calls with identical model state and dataset
(the same loss stream), identical is_val flag and identical num_batches return
identical loss values whatever the ambient RNG state of each call. -/
theorem claim_C7 (stream : LoaderArgs → List ℚ) (cfg : Config) (ds : Dataset)
    (is_val : Bool) (num_batches : Option Nat) (rng1 rng2 : Nat) :
    (evalLoaderArgs cfg is_val).seed = 0 ∧
    (∀ sd : Nat, (trainLoaderArgs cfg sd).seed = sd) ∧
    (evaluateWithRng stream cfg ds is_val num_batches rng1).1 =
      (evaluateWithRng stream cfg ds is_val num_batches rng2).1 :=
  ⟨rfl, fun _ => rfl, rfl⟩

/-! ## Claim C10 -/

/-- C10: for `evaluate(..., num_batches = k)`, when the batch stream yields
fewer than k batches, the loop `for batch, _ in zip(batches, range(k))`
consumes the whole stream, and the returned value divides the summed loss by
the requested cap k itself, not by the number of batches actually consumed. -/
theorem claim_C10 (stream : LoaderArgs → List ℚ) (cfg : Config) (ds : Dataset)
    (is_val : Bool) (k : Nat)
    (hm : (stream (evalLoaderArgs cfg is_val)).length < k) :
    evaluate stream cfg ds is_val (some k) =
      (stream (evalLoaderArgs cfg is_val)).sum / (k : ℚ) := by
  show (((stream (evalLoaderArgs cfg is_val)).zip (List.range k)).map Prod.fst).sum /
      (k : ℚ) = _
  rw [List.map_fst_zip _ _ (by rw [List.length_range]; omega)]

def streamW : LoaderArgs → List ℚ := fun _ => [2]

theorem claim_C10_witness :
    (streamW (evalLoaderArgs cfgW1 true)).length < 2 ∧
    evaluate streamW cfgW1 dsW true (some 2) =
      (streamW (evalLoaderArgs cfgW1 true)).sum / (2 : ℚ) :=
  ⟨by decide, claim_C10 streamW cfgW1 dsW true 2 (by decide)⟩

/-! ## `from_pretrained` (lines 236-244) -/

/-- The error taxonomy of the spec's load contract: missing or malformed
config file, missing or malformed metadata file, missing `best` checkpoint
artifact, or a checkpoint structurally incompatible with the model's expected
parameter shapes. -/
inductive LoadError where
  | configError
  | infoError
  | checkpointMissing
  | shapeMismatch
deriving DecidableEq

/-- The metadata (`info.json`) contents, opaque to the featurizer. -/
structure Info where
  payload : Nat
deriving DecidableEq

/-- The compute device selected by `torch.device` (line 240). -/
inductive Device where
  | cpu
  | cuda (idx : Nat)
deriving DecidableEq

/-- The parsed contents of a model directory: each field is `some` when the
corresponding file exists and parses, `none` when it is missing or
malformed. A `best` checkpoint is its list of parameter shapes. -/
structure ModelDirFS where
  config_json : Option Config
  info_json : Option Info
  best : Option (List Nat)

/-- Modelled from the spec: `read_config` (from `ehr_ml.clmbr.utils`, a
repository module not under `src/`) returns the parsed configuration, failing
when `config.json` is missing or malformed. -/
def read_config (fs : ModelDirFS) : Except LoadError Config :=
  match fs.config_json with
  | some c => .ok c
  | none => .error .configError

/-- Modelled from the spec: `read_info` returns the parsed metadata, failing
when `info.json` is missing or malformed. -/
def read_info (fs : ModelDirFS) : Except LoadError Info :=
  match fs.info_json with
  | some i => .ok i
  | none => .error .infoError

/-- Modelled from the spec: `torch.load` on the `best` path returns the
serialized state, failing when the artifact is missing. -/
def torch_load (fs : ModelDirFS) : Except LoadError (List Nat) :=
  match fs.best with
  | some sd => .ok sd
  | none => .error .checkpointMissing

/-- The external `PredictionModel`: constructed from config and metadata, it
expects parameter shapes given by the architecture (`shapesOf`, external) and
may hold a loaded parameter state. -/
structure PredictionModel where
  config : Config
  info : Info
  shapes : List Nat
  loaded : Option (List Nat)

/-- `PredictionModel(config, info)` (line 32). -/
def mkPredictionModel (shapesOf : Config → Info → List Nat) (c : Config)
    (i : Info) : PredictionModel :=
  { config := c, info := i, shapes := shapesOf c i, loaded := none }

/-- Modelled from the spec: `load_state_dict` loads the checkpoint's
parameter state into the model, failing when it is structurally incompatible
with the model's expected parameter shapes. -/
def load_state_dict (m : PredictionModel) (sd : List Nat) :
    Except LoadError PredictionModel :=
  if sd = m.shapes then .ok { m with loaded := some sd } else .error .shapeMismatch

/-- The featurizer object assembled by `from_pretrained`. -/
structure CLMBRFeaturizer where
  model : PredictionModel
  device : Device

/-- `from_pretrained` (lines 236-244): read `config.json` and `info.json`
from the model directory, pick `cuda:0` when available and `cpu` otherwise,
construct the model, `torch.load` the `best` artifact and load its state into
the model. -/
def from_pretrained (shapesOf : Config → Info → List Nat) (cuda_available : Bool)
    (fs : ModelDirFS) : Except LoadError CLMBRFeaturizer := do
  let config ← read_config fs
  let info ← read_info fs
  let device := if cuda_available then Device.cuda 0 else Device.cpu
  let model := mkPredictionModel shapesOf config info
  let model_data ← torch_load fs
  let m ← load_state_dict model model_data
  return { model := m, device := device }

/-! ## Claim C9 -/

/-- C9: `from_pretrained` reads the configuration and metadata from the model
directory, selects the accelerator when available and the cpu otherwise,
constructs the model and loads the `best` checkpoint's state into it; it
fails with a LoadError when the config file, metadata file or `best` artifact
is missing, or when the checkpoint's shapes are incompatible with the model's
expected parameter shapes. -/
theorem claim_C9 (shapesOf : Config → Info → List Nat) (cuda_available : Bool)
    (fs : ModelDirFS) :
    (fs.config_json = none →
      from_pretrained shapesOf cuda_available fs = .error .configError) ∧
    (∀ c, fs.config_json = some c → fs.info_json = none →
      from_pretrained shapesOf cuda_available fs = .error .infoError) ∧
    (∀ c i, fs.config_json = some c → fs.info_json = some i → fs.best = none →
      from_pretrained shapesOf cuda_available fs = .error .checkpointMissing) ∧
    (∀ c i sd, fs.config_json = some c → fs.info_json = some i →
      fs.best = some sd → sd ≠ shapesOf c i →
      from_pretrained shapesOf cuda_available fs = .error .shapeMismatch) ∧
    (∀ c i sd, fs.config_json = some c → fs.info_json = some i →
      fs.best = some sd → sd = shapesOf c i →
      from_pretrained shapesOf cuda_available fs = .ok
        ⟨⟨c, i, shapesOf c i, some sd⟩,
          if cuda_available then Device.cuda 0 else Device.cpu⟩) := by
  refine ⟨?_, ?_, ?_, ?_, ?_⟩
  · intro h
    simp [from_pretrained, read_config, h, bind, Except.bind]
  · intro c hc h
    simp [from_pretrained, read_config, read_info, hc, h, bind, Except.bind]
  · intro c i hc hi h
    simp [from_pretrained, read_config, read_info, torch_load, hc, hi, h, bind,
      Except.bind]
  · intro c i sd hc hi hb hne
    simp [from_pretrained, read_config, read_info, torch_load, load_state_dict,
      mkPredictionModel, hc, hi, hb, hne, bind, Except.bind]
  · intro c i sd hc hi hb heq
    simp [from_pretrained, read_config, read_info, torch_load, load_state_dict,
      mkPredictionModel, hc, hi, hb, heq, bind, Except.bind, Functor.map,
      Except.map, pure, Except.pure]

def cfgF : Config := ⟨1, 0, 0, 1, 1, 1, 0, 0, 0, 0, 0, 0, 0⟩

def infoF : Info := ⟨3⟩

def shapesF : Config → Info → List Nat := fun c i => [c.size, i.payload]

def fsFull : ModelDirFS := ⟨some cfgF, some infoF, some [1, 3]⟩

def fsEmpty : ModelDirFS := ⟨none, none, none⟩

theorem claim_C9_witness :
    from_pretrained shapesF true fsFull = .ok
      ⟨⟨cfgF, infoF, shapesF cfgF infoF, some [1, 3]⟩,
        if true then Device.cuda 0 else Device.cpu⟩ ∧
    from_pretrained shapesF false fsEmpty = .error .configError :=
  ⟨(claim_C9 shapesF true fsFull).2.2.2.2 cfgF infoF [1, 3] rfl rfl rfl (by decide),
    (claim_C9 shapesF false fsEmpty).1 rfl⟩
